import Mathlib

/-! ## Verification of `compare_html_sidebyside.py`

A shallow embedding of the comparison core of the `compare_syllabus`
repository (file `compare_html_sidebyside.py`), together with proofs and
refutations of the specification's claims.

Strings are embedded as `List Char` (`Str`).  Python's `urllib.parse`
functions (`urlparse`, `urljoin`) and `difflib.SequenceMatcher`, which the
source delegates to, are embedded faithfully from their CPython reference
implementations, since the claims' truth values depend on their exact
behaviour.  Exceptions are embedded with `Except String`.
-/
/-- Strings as lists of characters. -/
abbrev Str := List Char

/-- Convert a Lean string literal to the `Str` embedding. -/
def strOf (s : String) : Str := s.toList

/-- Python `str.lower()` (ASCII case folding suffices for the inputs the
claims quantify over). -/
def lowerStr (s : Str) : Str := s.map Char.toLower

/-- Python `s.rstrip('/')`: remove every trailing `'/'`. -/
def rstripSlash (s : Str) : Str := (s.reverse.dropWhile (fun c => c = '/')).reverse

/-- Python `s.split(c, 1)` restricted to its first component:
the part of `s` before the first occurrence of `c` (all of `s` if absent). -/
def beforeChar (c : Char) (s : Str) : Str := s.takeWhile (fun x => x ≠ c)

/-- Python `s.split(c, 1)` second component: the part of `s` after the first
occurrence of `c` (empty if `c` is absent). -/
def afterChar (c : Char) (s : Str) : Str := (s.dropWhile (fun x => x ≠ c)).tail

/-- Membership of a character in a string, as Python `c in s`. -/
def hasChar (c : Char) (s : Str) : Bool := s.any (fun x => x = c)

/-! ## Embedding of `urllib.parse` (CPython reference implementation)

`urlsplit` removes `'\t'`, `'\r'`, `'\n'` and leading C0-control/space
characters, detects an RFC scheme, extracts the netloc after `"//"`
(raising `ValueError` on a netloc with unbalanced square brackets), then
splits off fragment and query.  `urlparse` additionally splits `;params`
off the last path segment for schemes in `uses_params`. -/
/-- Characters allowed in a URL scheme after the initial letter. -/
def schemeChar (c : Char) : Bool :=
  c.isAlpha || c.isDigit || c = '+' || c = '-' || c = '.'

/-- A valid scheme: nonempty, initial letter, rest scheme characters. -/
def validScheme : Str → Bool
  | [] => false
  | c :: cs => c.isAlpha && cs.all schemeChar

/-- Python `url.lstrip(_WHATWG_C0_CONTROL_OR_SPACE)`. -/
def lstripC0 (s : Str) : Str := s.dropWhile (fun c => c.toNat ≤ 32)

/-- Python removal of `_UNSAFE_URL_BYTES_TO_REMOVE` (`'\t'`, `'\r'`, `'\n'`). -/
def removeUnsafe (s : Str) : Str :=
  s.filter (fun c => ¬ (c = '\t' ∨ c = '\r' ∨ c = '\n'))

/-- Scheme detection of `urlsplit`: if the text before the first `':'` is a
valid scheme, return it lowercased together with the remainder; the second
argument is the caller-supplied default scheme. -/
def splitScheme (default : Str) (url : Str) : Str × Str :=
  let pre := beforeChar ':' url
  if pre.length < url.length ∧ validScheme pre then
    (lowerStr pre, url.drop (pre.length + 1))
  else
    (default, url)

/-- A character terminating the netloc (`_splitnetloc` delimiters). -/
def netlocDelim (c : Char) : Bool := c = '/' || c = '?' || c = '#'

/-- Result of `urlsplit`. -/
structure SplitRes where
  scheme : Str
  netloc : Str
  path : Str
  query : Str
  fragment : Str
deriving Repr, DecidableEq

/-- Embedding of CPython `urllib.parse.urlsplit(url, scheme=default)` with
`allow_fragments=True`.  Fails (ValueError "Invalid IPv6 URL") exactly when
the netloc contains `'['` without `']'` or vice versa. -/
def urlsplitE (default : Str) (u : Str) : Except String SplitRes :=
  let url := removeUnsafe (lstripC0 u)
  let (scheme, rest) := splitScheme default url
  let (netloc, rest) :=
    if rest.take 2 = strOf "//" then
      ((rest.drop 2).takeWhile (fun c => ¬ netlocDelim c),
       (rest.drop 2).dropWhile (fun c => ¬ netlocDelim c))
    else ([], rest)
  if (hasChar '[' netloc ∧ ¬ hasChar ']' netloc) ∨
     (hasChar ']' netloc ∧ ¬ hasChar '[' netloc) then
    .error "Invalid IPv6 URL"
  else
    let (rest, fragment) := (beforeChar '#' rest, afterChar '#' rest)
    let (path, query) := (beforeChar '?' rest, afterChar '?' rest)
    .ok ⟨scheme, netloc, path, query, fragment⟩

/-- CPython `uses_params`. -/
def usesParams (s : Str) : Bool :=
  [strOf "", strOf "ftp", strOf "hdl", strOf "prospero", strOf "http",
   strOf "imap", strOf "https", strOf "shttp", strOf "rtsp", strOf "rtspu",
   strOf "sip", strOf "sips", strOf "mms", strOf "sftp",
   strOf "tel"].any (fun x => x = s)

/-- CPython `uses_relative`. -/
def usesRelative (s : Str) : Bool :=
  [strOf "", strOf "ftp", strOf "http", strOf "gopher", strOf "nntp",
   strOf "imap", strOf "wais", strOf "file", strOf "https", strOf "shttp",
   strOf "mms", strOf "prospero", strOf "rtsp", strOf "rtspu", strOf "sftp",
   strOf "svn", strOf "svn+ssh", strOf "ws", strOf "wss"].any (fun x => x = s)

/-- CPython `uses_netloc`. -/
def usesNetloc (s : Str) : Bool :=
  [strOf "", strOf "ftp", strOf "http", strOf "gopher", strOf "nntp",
   strOf "telnet", strOf "imap", strOf "wais", strOf "file", strOf "mms",
   strOf "https", strOf "shttp", strOf "snews", strOf "prospero",
   strOf "rtsp", strOf "rtspu", strOf "rsync", strOf "svn",
   strOf "svn+ssh", strOf "sftp", strOf "nfs", strOf "git",
   strOf "git+ssh", strOf "ws", strOf "wss",
   strOf "itms-services"].any (fun x => x = s)

/-- The last `'/'`-separated segment of a path (the whole path when it has
no slash); helper for `_splitparams`. -/
def lastSegment (p : Str) : Str := (p.reverse.takeWhile (fun c => c ≠ '/')).reverse

/-- CPython `_splitparams`: split `;params` off the last path segment. -/
def splitparams (p : Str) : Str × Str :=
  let seg := lastSegment p
  let pre := p.take (p.length - seg.length)
  if hasChar ';' seg then
    (pre ++ beforeChar ';' seg, afterChar ';' seg)
  else (p, [])

/-- Result of `urlparse`. -/
structure ParseRes where
  scheme : Str
  netloc : Str
  path : Str
  params : Str
  query : Str
  fragment : Str
deriving Repr, DecidableEq

/-- Embedding of CPython `urllib.parse.urlparse(url, scheme=default)`. -/
def urlparseE (default : Str) (u : Str) : Except String ParseRes := do
  let s ← urlsplitE default u
  if usesParams s.scheme ∧ hasChar ';' s.path then
    let (path, params) := splitparams s.path
    pure ⟨s.scheme, s.netloc, path, params, s.query, s.fragment⟩
  else
    pure ⟨s.scheme, s.netloc, s.path, [], s.query, s.fragment⟩

/-- CPython `urlunsplit`. -/
def urlunsplit (scheme netloc path query fragment : Str) : Str :=
  let url := path
  let url :=
    if netloc ≠ [] ∨ (url ≠ [] ∧ url.take 2 = strOf "//") then
      let url := if url ≠ [] ∧ url.take 1 ≠ strOf "/" then '/' :: url else url
      strOf "//" ++ netloc ++ url
    else url
  let url := if scheme ≠ [] then scheme ++ [':'] ++ url else url
  let url := if query ≠ [] then url ++ ['?'] ++ query else url
  if fragment ≠ [] then url ++ ['#'] ++ fragment else url

/-- CPython `urlunparse`. -/
def urlunparse (scheme netloc path params query fragment : Str) : Str :=
  let path := if params ≠ [] then path ++ [';'] ++ params else path
  urlunsplit scheme netloc path query fragment

/-- Python `s.split(c)` on a character separator (always nonempty result). -/
def splitOnChar (c : Char) : Str → List Str
  | [] => [[]]
  | x :: xs =>
    if x = c then [] :: splitOnChar c xs
    else
      match splitOnChar c xs with
      | [] => [[x]]
      | s :: ss => (x :: s) :: ss

/-- `segments[1:-1] = filter(None, segments[1:-1])`: drop empty strings
strictly between the first and last element. -/
def filterMiddle : List Str → List Str
  | [] => []
  | x :: xs =>
    x :: ((xs.dropLast.filter (fun s => s ≠ [])) ++ xs.drop (xs.length - 1))

/-- The `resolved_path` loop of `urljoin`: `'..'` pops, `'.'` is skipped,
anything else is appended. -/
def resolveSegs (acc : List Str) : List Str → List Str
  | [] => acc
  | s :: rest =>
    if s = strOf ".." then resolveSegs acc.dropLast rest
    else if s = strOf "." then resolveSegs acc rest
    else resolveSegs (acc ++ [s]) rest

/-- Embedding of CPython `urllib.parse.urljoin(base, url)`. -/
def urljoinE (base url : Str) : Except String Str := do
  if base = [] then return url
  if url = [] then return base
  let b ← urlparseE [] base
  let r ← urlparseE b.scheme url
  if r.scheme ≠ b.scheme ∨ ¬ usesRelative r.scheme then return url
  let (netloc, early) :=
    if usesNetloc r.scheme then
      if r.netloc ≠ [] then (r.netloc, true) else (b.netloc, false)
    else (r.netloc, false)
  if early then
    return urlunparse r.scheme netloc r.path r.params r.query r.fragment
  if r.path = [] ∧ r.params = [] then
    let query := if r.query = [] then b.query else r.query
    return urlunparse r.scheme netloc b.path b.params query r.fragment
  let baseParts :=
    let bp := splitOnChar '/' b.path
    if bp.getLast? ≠ some [] then bp.dropLast else bp
  let segments :=
    if r.path.take 1 = strOf "/" then splitOnChar '/' r.path
    else filterMiddle (baseParts ++ splitOnChar '/' r.path)
  let resolved := resolveSegs [] segments
  let resolved :=
    if segments.getLast? = some (strOf ".") ∨ segments.getLast? = some (strOf "..") then
      resolved ++ [[]]
    else resolved
  let joined := List.intercalate (strOf "/") resolved
  let joined := if joined = [] then strOf "/" else joined
  return urlunparse r.scheme netloc joined r.params r.query r.fragment

/-! ## The repository's `normalize_url` and `compare_links` -/
/-- Does the URL start with `http://` or `https://` (the source's
absoluteness test)? -/
def isHttpAbsolute (url : Str) : Bool :=
  (strOf "http://").isPrefixOf url || (strOf "https://").isPrefixOf url

/-- The three-branch resolution step at the top of `normalize_url`. -/
def resolveUrl (url base : Str) : Except String Str :=
  if isHttpAbsolute url then .ok url
  else if base ≠ [] then urljoinE base url
  else .ok url

/-- Reassembly step of `normalize_url`:
`f"{scheme}://{netloc}{path}"` plus `?query` when the query is nonempty. -/
def reassemble (p : ParseRes) : Str :=
  let normalized := p.scheme ++ strOf "://" ++ p.netloc ++ p.path
  if p.query ≠ [] then normalized ++ ['?'] ++ p.query else normalized

/-- Embedding of the source's `normalize_url(url, base_url='')`
(lines 111-125): resolve, parse, reassemble, `rstrip('/')`, `lower()`.
An exception escaping `urlparse`/`urljoin` is an `Except.error`. -/
def normalize_url (url : Str) (base : Str) : Except String Str := do
  let absolute ← resolveUrl url base
  let p ← urlparseE [] absolute
  pure (lowerStr (rstripSlash (reassemble p)))

/-- A link record as built by `extract_links`. -/
structure Link where
  url : Str
  text : Str
  html : Str
deriving Repr, DecidableEq

/-- Python dict insertion: overwrite in place or append at the end. -/
def dinsert (k : Str) (v : Link) : List (Str × Link) → List (Str × Link)
  | [] => [(k, v)]
  | (k0, v0) :: rest =>
    if k0 = k then (k0, v) :: rest else (k0, v0) :: dinsert k v rest

/-- Association lookup (keys of our dicts are distinct). -/
def dget : List (Str × Link) → Str → Option Link
  | [], _ => none
  | (k0, v0) :: rest, k => if k0 = k then some v0 else dget rest k

/-- Normalization key of a link if normalization succeeds (the `try` body
of `compare_links`); `none` when `normalize_url` raises. -/
def normKey (base : Str) (l : Link) : Option Str :=
  (normalize_url l.url base).toOption

/-- The dict built by the first/second loop of `compare_links`: for every
link whose normalization succeeds, `norm_links[key] = link` (later links
silently overwrite earlier ones); failing links are dropped (`except: pass`). -/
def buildDict (base : Str) (links : List Link) : List (Str × Link) :=
  links.foldl
    (fun d l => match normKey base l with
      | some k => dinsert k l d
      | none => d) []

/-- `buildDict` with an explicit starting dictionary (the loop state). -/
def buildDictFrom (base : Str) (d : List (Str × Link)) : List Link → List (Str × Link)
  | [] => d
  | l :: ls =>
    buildDictFrom base
      (match normKey base l with
        | some k => dinsert k l d
        | none => d) ls

instance : Inhabited Link := ⟨⟨[], [], []⟩⟩

/-- Lexicographic strict order on `Str` by character code, matching Python
string comparison; used for `sorted(..., key=lambda x: x.get('text',''))`. -/
def strLt : Str → Str → Prop
  | [], [] => False
  | [], _ :: _ => True
  | _ :: _, [] => False
  | a :: as, b :: bs => a < b ∨ (a = b ∧ strLt as bs)

instance : DecidableRel strLt := by
  intro a
  induction a with
  | nil => intro b; cases b <;> simp [strLt] <;> infer_instance
  | cons x xs ih =>
    intro b
    cases b with
    | nil => simp [strLt]; infer_instance
    | cons y ys =>
      simp only [strLt]
      have := ih ys
      infer_instance

/-- Sort key of `compare_links`: visible anchor text. -/
def linkLt (x y : Link) : Prop := strLt x.text y.text

instance : DecidableRel linkLt := fun x y => by
  unfold linkLt; infer_instance

/-- Result of `compare_links`. -/
structure LinkComparison where
  only_in_v1 : List Link
  only_in_v2 : List Link
  in_both : List Link
  total_v1 : Nat
  total_v2 : Nat
deriving Repr

/-- Fallback record; `dget` is only applied at keys present in the dict. -/
def noLink : Link := ⟨[], [], []⟩

/-- Embedding of the source's `compare_links(links1, links2, base_url1='',
base_url2='')` (lines 127-158).  Set differences and intersection are
computed on the dicts' key sequences; result lists are sorted by anchor
text. -/
def compare_links (links1 links2 : List Link) (b1 b2 : Str) : LinkComparison :=
  let d1 := buildDict b1 links1
  let d2 := buildDict b2 links2
  let keys1 := d1.map Prod.fst
  let keys2 := d2.map Prod.fst
  let only1 := keys1.filter (fun k => ¬ k ∈ keys2)
  let only2 := keys2.filter (fun k => ¬ k ∈ keys1)
  let both := keys1.filter (fun k => k ∈ keys2)
  { only_in_v1 := (only1.map (fun k => (dget d1 k).getD noLink)).insertionSort linkLt
    only_in_v2 := (only2.map (fun k => (dget d2 k).getD noLink)).insertionSort linkLt
    in_both := (both.map (fun k => (dget d1 k).getD noLink)).insertionSort linkLt
    total_v1 := keys1.length
    total_v2 := keys2.length }

/-! ## Embedding of `difflib.SequenceMatcher` (CPython, `isjunk=None`)

`SequenceMatcher(None, a, b)` builds `b2j`, mapping each element of `b` to
its ascending list of positions; with `autojunk` (the default), elements
occurring in more than 1% of a `b` of length ≥ 200 are "popular" and get no
positions.  `find_longest_match` runs the classic chained-suffix dynamic
programming pass and then extends the best match over adjacent equal
elements (the junk-extension loops are identities since `bjunk` is empty
when `isjunk is None`).  `get_matching_blocks` processes a stack of
rectangles (Python pops from the end of its queue; the head of our list is
that end), sorts, coalesces adjacent blocks and appends the terminal
`(la, lb, 0)` sentinel. -/
/-- Number of occurrences of `c` in `b`. -/
def countChar (b : Str) (c : Char) : Nat := (b.filter (fun x => x = c)).length

/-- Autojunk: popular elements of a `b` of length ≥ 200. -/
def isPopular (b : Str) (c : Char) : Bool :=
  200 ≤ b.length && b.length / 100 + 1 < countChar b c

/-- `b2j.get(c, [])`: ascending positions of `c` in `b`, empty for popular
elements. -/
def b2j (b : Str) (c : Char) : List Nat :=
  if isPopular b c then []
  else (List.range b.length).filter (fun j => b.getD j c = c ∧ j < b.length)

/-- A matching block `Match(a=i, b=j, size=k)`. -/
structure Blk where
  i : Nat
  j : Nat
  k : Nat
deriving Repr, DecidableEq

/-- Lookup with default `0`, as `j2len.get(key, 0)`. -/
def lookupD : List (Nat × Nat) → Nat → Nat
  | [], _ => 0
  | (a, v) :: d, key => if a = key then v else lookupD d key

/-- The inner `for j in b2j.get(a[i], nothing)` loop of
`find_longest_match`: `continue` below `blo`, `break` at `bhi`, chain
lengths through `j2len`.  `i + 1 - k` is Python's `i - k + 1` (the chain
invariant gives `k ≤ i + 1`, so the truncated subtraction agrees). -/
def jloop (blo bhi i : Nat) (j2old : List (Nat × Nat)) :
    List Nat → List (Nat × Nat) → Blk → List (Nat × Nat) × Blk
  | [], jnew, best => (jnew, best)
  | j :: js, jnew, best =>
    if j < blo then jloop blo bhi i j2old js jnew best
    else if bhi ≤ j then (jnew, best)
    else
      let k := (if j = 0 then 0 else lookupD j2old (j - 1)) + 1
      let jnew := (j, k) :: jnew
      let best := if best.k < k then ⟨i + 1 - k, j + 1 - k, k⟩ else best
      jloop blo bhi i j2old js jnew best

/-- The outer `for i in range(alo, ahi)` loop of `find_longest_match`. -/
def iloop (a b : Str) (blo bhi : Nat) :
    List Nat → List (Nat × Nat) → Blk → Blk
  | [], _, best => best
  | i :: is, j2len, best =>
    let r := jloop blo bhi i j2len (b2j b (a.getD i ' ')) [] best
    iloop a b blo bhi is r.1 r.2

/-- Front extension loop: extend the match over equal adjacent elements
(`fuel` is an upper bound on the number of decrements of `best.i`). -/
def extFront (a b : Str) (alo blo : Nat) : Blk → Nat → Blk
  | best, 0 => best
  | best, fuel + 1 =>
    if alo < best.i ∧ blo < best.j ∧
       a.getD (best.i - 1) ' ' = b.getD (best.j - 1) ' ' then
      extFront a b alo blo ⟨best.i - 1, best.j - 1, best.k + 1⟩ fuel
    else best

/-- Back extension loop. -/
def extBack (a b : Str) (ahi bhi : Nat) : Blk → Nat → Blk
  | best, 0 => best
  | best, fuel + 1 =>
    if best.i + best.k < ahi ∧ best.j + best.k < bhi ∧
       a.getD (best.i + best.k) ' ' = b.getD (best.j + best.k) ' ' then
      extBack a b ahi bhi ⟨best.i, best.j, best.k + 1⟩ fuel
    else best

/-- Embedding of `SequenceMatcher.find_longest_match(alo, ahi, blo, bhi)`
with `isjunk=None` (so the junk-extension loops are identities and are
omitted). -/
def find_longest_match (a b : Str) (alo ahi blo bhi : Nat) : Blk :=
  let best := iloop a b blo bhi (List.range' alo (ahi - alo)) [] ⟨alo, blo, 0⟩
  let best := extFront a b alo blo best best.i
  extBack a b ahi bhi best ahi

/-- A rectangle `(alo, ahi, blo, bhi)` of the `get_matching_blocks` queue. -/
structure Rect where
  alo : Nat
  ahi : Nat
  blo : Nat
  bhi : Nat
deriving Repr, DecidableEq

/-- The queue loop of `get_matching_blocks`.  The head of the list is the
end of Python's queue (`queue.pop()` / two `queue.append`s); the collected
blocks are accumulated in `acc` (order is irrelevant: they are sorted
next).  The fuel `2*(ahi-alo)+1` per rectangle strictly decreases, so the
initial fuel in `get_matching_blocks` always suffices. -/
def mbAux (a b : Str) : Nat → List Rect → List Blk → List Blk
  | 0, _, acc => acc
  | _ + 1, [], acc => acc
  | fuel + 1, r :: q, acc =>
    let m := find_longest_match a b r.alo r.ahi r.blo r.bhi
    if m.k = 0 then mbAux a b fuel q acc
    else
      let q := if r.alo < m.i ∧ r.blo < m.j then ⟨r.alo, m.i, r.blo, m.j⟩ :: q else q
      let q := if m.i + m.k < r.ahi ∧ m.j + m.k < r.bhi then
          ⟨m.i + m.k, r.ahi, m.j + m.k, r.bhi⟩ :: q else q
      mbAux a b fuel q (m :: acc)

/-- Python tuple comparison `(i, j, k) <= (i', j', k')` used by
`matching_blocks.sort()`. -/
def blkLe (x y : Blk) : Prop :=
  x.i < y.i ∨ (x.i = y.i ∧ (x.j < y.j ∨ (x.j = y.j ∧ x.k ≤ y.k)))

instance : DecidableRel blkLe := fun x y => by
  unfold blkLe; infer_instance

instance : IsTotal Blk blkLe where
  total x y := by
    rcases Nat.lt_trichotomy x.i y.i with h | h | h
    · exact Or.inl (Or.inl h)
    · rcases Nat.lt_trichotomy x.j y.j with h2 | h2 | h2
      · exact Or.inl (Or.inr ⟨h, Or.inl h2⟩)
      · rcases Nat.le_total x.k y.k with h3 | h3
        · exact Or.inl (Or.inr ⟨h, Or.inr ⟨h2, h3⟩⟩)
        · exact Or.inr (Or.inr ⟨h.symm, Or.inr ⟨h2.symm, h3⟩⟩)
      · exact Or.inr (Or.inr ⟨h.symm, Or.inl h2⟩)
    · exact Or.inr (Or.inl h)

instance : IsTrans Blk blkLe where
  trans x y z hxy hyz := by
    rcases hxy with h | ⟨e, h⟩ <;> rcases hyz with h2 | ⟨e2, h2⟩
    · exact Or.inl (h.trans h2)
    · exact Or.inl (e2 ▸ h)
    · exact Or.inl (e ▸ h2)
    · refine Or.inr ⟨e.trans e2, ?_⟩
      rcases h with h | ⟨ej, h⟩ <;> rcases h2 with h2 | ⟨ej2, h2⟩
      · exact Or.inl (h.trans h2)
      · exact Or.inl (ej2 ▸ h)
      · exact Or.inl (ej ▸ h2)
      · exact Or.inr ⟨ej.trans ej2, h.trans h2⟩

/-- The adjacent-coalescing loop of `get_matching_blocks`, with the running
`(i1, j1, k1)` triple (initially `(0, 0, 0)`). -/
def mergeAdj (i1 j1 k1 : Nat) : List Blk → List Blk
  | [] => if k1 ≠ 0 then [⟨i1, j1, k1⟩] else []
  | m :: rest =>
    if i1 + k1 = m.i ∧ j1 + k1 = m.j then mergeAdj i1 j1 (k1 + m.k) rest
    else (if k1 ≠ 0 then [⟨i1, j1, k1⟩] else []) ++ mergeAdj m.i m.j m.k rest

/-- Embedding of `SequenceMatcher.get_matching_blocks()`. -/
def get_matching_blocks (a b : Str) : List Blk :=
  let blocks := mbAux a b (2 * a.length + 1) [⟨0, a.length, 0, b.length⟩] []
  mergeAdj 0 0 0 (blocks.insertionSort blkLe) ++ [⟨a.length, b.length, 0⟩]

/-- Opcode tags of `get_opcodes`. -/
inductive DTag where
  | equal
  | delete
  | insert
  | replace
deriving Repr, DecidableEq

/-- An opcode `(tag, i1, i2, j1, j2)`. -/
structure Op where
  tag : DTag
  i1 : Nat
  i2 : Nat
  j1 : Nat
  j2 : Nat
deriving Repr, DecidableEq

/-- The loop of `get_opcodes` over the matching blocks, with the running
`(i, j)` cursor. -/
def opcodesFrom (i j : Nat) : List Blk → List Op
  | [] => []
  | m :: rest =>
    let gap : List Op :=
      if i < m.i ∧ j < m.j then [⟨.replace, i, m.i, j, m.j⟩]
      else if i < m.i then [⟨.delete, i, m.i, j, m.j⟩]
      else if j < m.j then [⟨.insert, i, m.i, j, m.j⟩]
      else []
    gap ++ (if m.k ≠ 0 then [⟨.equal, m.i, m.i + m.k, m.j, m.j + m.k⟩] else [])
        ++ opcodesFrom (m.i + m.k) (m.j + m.k) rest

/-- Embedding of `SequenceMatcher.get_opcodes()`. -/
def get_opcodes (a b : Str) : List Op := opcodesFrom 0 0 (get_matching_blocks a b)

/-- Python slice `s[x:y]`. -/
def pySlice (s : Str) (x y : Nat) : Str := (s.drop x).take (y - x)

/-- `_calculate_ratio(matches, length)`, with the exact rational value in
place of the IEEE quotient (the claims compare ratios for equality with
`1.0` and with each other; the rational model decides these the same way
whenever, as in all inputs used here, the quotients are exactly
representable or compared at distinct rationals). -/
def calcRatio (m length : Nat) : ℚ :=
  if length ≠ 0 then 2 * (m : ℚ) / (length : ℚ) else 1

/-- Embedding of the source's `calculate_similarity(text1, text2)`
(lines 207-210): `SequenceMatcher(None, text1, text2).ratio()`. -/
def calculate_similarity (text1 text2 : Str) : ℚ :=
  calcRatio (((get_matching_blocks text1 text2).map Blk.k).sum)
    (text1.length + text2.length)

/-- The per-opcode segments `(tag, text1[i1:i2], text2[j1:j2])` of
`generate_text_diff_view`'s loop (lines 190-203), before escaping and
markup. -/
def generate_text_diff_segments (text1 text2 : Str) : List (DTag × Str × Str) :=
  (get_opcodes text1 text2).map (fun op => (op.tag, pySlice text1 op.i1 op.i2, pySlice text2 op.j1 op.j2))

/-- `html.escape` (with the default `quote=True`). -/
def escapeHtml (s : Str) : Str :=
  s.foldr (fun c acc =>
    (if c = '&' then strOf "&amp;"
     else if c = '<' then strOf "&lt;"
     else if c = '>' then strOf "&gt;"
     else if c = '"' then strOf "&quot;"
     else if c = '\x27' then strOf "&#x27;"
     else [c]) ++ acc) []

/-- `<span class="cls">inner</span>`. -/
def spanWrap (cls : String) (inner : Str) : Str :=
  strOf "<span class=" ++ ['"'] ++ strOf cls ++ ['"', '>'] ++ inner ++ strOf "</span>"

/-- Side-1 rendering of one segment: `equal` text escaped, `delete` and
`replace` runs wrapped, `insert` omitted. -/
def renderSeg1 (s : DTag × Str × Str) : Str :=
  match s.1 with
  | .equal => escapeHtml s.2.1
  | .delete => spanWrap "diff-removed" (escapeHtml s.2.1)
  | .insert => []
  | .replace => spanWrap "diff-changed" (escapeHtml s.2.1)

/-- Side-2 rendering of one segment. -/
def renderSeg2 (s : DTag × Str × Str) : Str :=
  match s.1 with
  | .equal => escapeHtml s.2.2
  | .delete => []
  | .insert => spanWrap "diff-added" (escapeHtml s.2.2)
  | .replace => spanWrap "diff-changed" (escapeHtml s.2.2)

/-- Embedding of the source's `generate_text_diff_view(text1, text2)`
(lines 183-205): the pair `(''.join(result_v1), ''.join(result_v2))`. -/
def generate_text_diff_view (text1 text2 : Str) : Str × Str :=
  (((generate_text_diff_segments text1 text2).map renderSeg1).flatten,
   ((generate_text_diff_segments text1 text2).map renderSeg2).flatten)

/-- Keys of side 1 of a link comparison. -/
def keysOf (b : Str) (links : List Link) : List Str := (buildDict b links).map Prod.fst

/-! ## Normalization shape (claim C3) -/
/-- Modelled from the spec (claim C3's words): strip **exactly one**
trailing slash if present.  This is the comparand for the refinement
claim; the source strips all trailing slashes. -/
def stripOneSlash (s : Str) : Str :=
  if s.getLast? = some '/' then s.dropLast else s

/-- Modelled from the spec (claim C3's words): resolve, decompose into
scheme/host/path/query, reassemble with `?query` only when a query is
present, strip exactly one trailing slash, lowercase the result. -/
def spec_normalize_one_slash (url base : Str) : Except String Str := do
  let absolute ← resolveUrl url base
  let p ← urlparseE [] absolute
  pure (lowerStr (stripOneSlash (reassemble p)))

/-- The same reassembly with all trailing slashes stripped (the amended
slash rule; this matches the source). -/
def spec_normalize_all_slashes (url base : Str) : Except String Str := do
  let absolute ← resolveUrl url base
  let p ← urlparseE [] absolute
  pure (lowerStr (rstripSlash (reassemble p)))

instance exceptDecEq {ε α : Type} [DecidableEq ε] [DecidableEq α] :
    DecidableEq (Except ε α) := fun a b =>
  match a, b with
  | .ok x, .ok y =>
    match decEq x y with
    | isTrue h => isTrue (by rw [h])
    | isFalse h => isFalse (by intro he; injection he with h2; exact h h2)
  | .error x, .error y =>
    match decEq x y with
    | isTrue h => isTrue (by rw [h])
    | isFalse h => isFalse (by intro he; injection he with h2; exact h h2)
  | .ok _, .error _ => isFalse (fun he => Except.noConfusion he)
  | .error _, .ok _ => isFalse (fun he => Except.noConfusion he)

/-- Normal form of `urlsplitE` on a URL of shape `scheme://t`
(characterization used in the idempotence proof). -/
def splitAbs (S t : Str) : Except String SplitRes :=
  let m := removeUnsafe t
  let nl := m.takeWhile (fun c => ¬ netlocDelim c)
  let r2 := m.dropWhile (fun c => ¬ netlocDelim c)
  if (hasChar '[' nl ∧ ¬ hasChar ']' nl) ∨ (hasChar ']' nl ∧ ¬ hasChar '[' nl) then
    .error "Invalid IPv6 URL"
  else
    .ok ⟨S, nl, beforeChar '?' (beforeChar '#' r2),
         afterChar '?' (beforeChar '#' r2), afterChar '#' r2⟩

/-! ## Embedding of the parsed HTML tree (BeautifulSoup) and the extractors

A parsed document is a tree of element nodes (tag name, attributes,
children) and text nodes (`NavigableString`s).  A Tag is always truthy
(`Tag.__bool__` returns `True` unconditionally, empty tags included), and
a `NavigableString` is a `str` subclass, falsy exactly when empty; so
`if not soup` fires only for `None`.  `Tag.append` on an element that
already has a parent
moves it (it is extracted from its tree first); the synthetic `div`
container of `extract_content_after_marker` therefore removes the
collected element siblings from the original document, which the
embedding makes explicit by returning the post-state document next to the
extracted region. -/
inductive Node where
  | elt (name : Str) (attrs : List (Str × Str)) (children : List Node)
  | txt (s : Str)
deriving Repr

/-- Python truthiness of an optional soup node: a Tag is always truthy
(`Tag.__bool__` returns `True` unconditionally), a `NavigableString` is
truthy when nonempty (it is a `str` subclass), `None` is falsy. -/
def isTruthy : Option Node → Bool
  | none => false
  | some (.txt s) => !s.isEmpty
  | some (.elt _ _ _) => true

mutual
/-- Number of nodes in the tree (used to witness mutation). -/
def countNode : Node → Nat
  | .txt _ => 1
  | .elt _ _ cs => 1 + countNodes cs
def countNodes : List Node → Nat
  | [] => 0
  | c :: cs => countNode c + countNodes cs
end

mutual
/-- The method get_text of a Tag: concatenation of all descendant strings. -/
def getTextN : Node → Str
  | .txt s => s
  | .elt _ _ cs => getTextL cs
def getTextL : List Node → Str
  | [] => []
  | c :: cs => getTextN c ++ getTextL cs
end

/-- Python whitespace for `str.strip()`. -/
def pySpace (c : Char) : Bool :=
  c = ' ' || c = '\t' || c = '\n' || c = '\r' || c = '\x0b' || c = '\x0c'

/-- Python `str.strip()`. -/
def stripPy (s : Str) : Str :=
  ((s.dropWhile pySpace).reverse.dropWhile pySpace).reverse

mutual
/-- The method get_text with strip=True and the default empty separator:
each descendant string stripped, concatenated. -/
def getTextStripN : Node → Str
  | .txt s => stripPy s
  | .elt _ _ cs => getTextStripL cs
def getTextStripL : List Node → Str
  | [] => []
  | c :: cs => getTextStripN c ++ getTextStripL cs
end

mutual
/-- The descendants of a node, in document order (the node itself followed
by the descendants of its children), as `Tag.descendants` yields them for
each child of the root. -/
def descN : Node → List Node
  | .txt s => [.txt s]
  | .elt nm ats cs => .elt nm ats cs :: descL cs
def descL : List Node → List Node
  | [] => []
  | c :: cs => descN c ++ descL cs
end

/-- Name of a node (text nodes have none). -/
def nodeName : Node → Str
  | .elt nm _ _ => nm
  | .txt _ => []

/-- Children of a node. -/
def childrenOf : Node → List Node
  | .elt _ _ cs => cs
  | .txt _ => []

def isElt : Node → Bool
  | .elt _ _ _ => true
  | .txt _ => false

/-- First attribute value, as `tag.get(name)` / `tag[name]`. -/
def attrGet (ats : List (Str × Str)) (key : Str) : Option Str :=
  match ats with
  | [] => none
  | (k, v) :: rest => if k = key then some v else attrGet rest key

/-- The candidate marker tags of `extract_content_after_marker`. -/
def markerTags : List Str :=
  [strOf "b", strOf "strong", strOf "h1", strOf "h2", strOf "h3",
   strOf "h4", strOf "p", strOf "font"]

/-- Does this element match the marker search
(`marker_text.lower() in element.get_text().lower()`)? -/
def isMarkerElt (marker : Str) : Node → Bool
  | .txt _ => false
  | .elt nm ats cs =>
    decide (nm ∈ markerTags) &&
      decide (List.IsInfix (lowerStr marker) (lowerStr (getTextN (.elt nm ats cs))))

mutual
/-- Path (child indices) of the first marker-matching descendant,
document order. -/
def findMarkerNode (marker : Str) : Node → Option (List Nat)
  | .txt _ => none
  | .elt nm ats cs =>
    if isMarkerElt marker (.elt nm ats cs) then some []
    else findMarkerIn marker cs 0
def findMarkerIn (marker : Str) : List Node → Nat → Option (List Nat)
  | [], _ => none
  | c :: cs, i =>
    match findMarkerNode marker c with
    | some p => some (i :: p)
    | none => findMarkerIn marker cs (i + 1)
end

/-- Node at a path. -/
def getNode : Node → List Nat → Option Node
  | n, [] => some n
  | .txt _, _ :: _ => none
  | .elt _ _ cs, i :: p =>
    match cs.get? i with
    | some c => getNode c p
    | none => none

mutual
/-- First descendant named body (as `soup.body`). -/
def findBodyNode : Node → Option Node
  | .txt _ => none
  | .elt nm ats cs =>
    if nm = strOf "body" then some (.elt nm ats cs) else findBodyIn cs
def findBodyIn : List Node → Option Node
  | [] => none
  | c :: cs =>
    match findBodyNode c with
    | some b => some b
    | none => findBodyIn cs
end

/-- `soup.body if soup.body else soup`: a body Tag is always truthy, so
the whole soup is returned exactly when no `body` element exists. -/
def bodyOr (root : Node) : Node :=
  match findBodyIn (childrenOf root) with
  | some b => b
  | none => root

/-- The walk-up loop (`while current.parent and current.parent.name not in
['body','html',None]: if current.parent.name in ['td','div','body']:
break; current = current.parent`), on paths; the fuel is the path length. -/
def walkUp (root : Node) : List Nat → Nat → List Nat
  | p, 0 => p
  | p, fuel + 1 =>
    if p = [] then p
    else
      match getNode root p.dropLast with
      | none => p
      | some parent =>
        if nodeName parent = strOf "body" ∨ nodeName parent = strOf "html" then p
        else if nodeName parent = strOf "td" ∨ nodeName parent = strOf "div" ∨
            nodeName parent = strOf "body" then p
        else walkUp root p.dropLast fuel

/-- Apply `f` to the node at a path. -/
def modifyAt (f : Node → Node) : Node → List Nat → Node
  | n, [] => f n
  | .txt s, _ :: _ => .txt s
  | .elt nm ats cs, i :: p =>
    match cs.get? i with
    | none => .elt nm ats cs
    | some c => .elt nm ats (cs.take i ++ modifyAt f c p :: cs.drop (i + 1))

/-- Remove the element (tag) siblings after child `idx` — the effect of
moving them into the container; text siblings stay. -/
def dropFollowingElems (idx : Nat) : Node → Node
  | .txt s => .txt s
  | .elt nm ats cs =>
    .elt nm ats (cs.take (idx + 1) ++ (cs.drop (idx + 1)).filter (fun c => ¬ isElt c))

/-- Following element siblings (`find_next_siblings()`) of the node at
path `cp`. -/
def followingElemSiblings (root : Node) (cp : List Nat) : List Node :=
  match cp with
  | [] => []
  | _ =>
    match getNode root cp.dropLast with
    | some parent =>
      ((childrenOf parent).drop ((cp.getLast?.getD 0) + 1)).filter isElt
    | none => []

/-- Embedding of the source's `extract_content_after_marker(soup,
marker_text)` (lines 25-72).  The result pairs the returned region with
the post-state of the document (`Tag.append` moves the collected
siblings out of the original tree). -/
def extract_content_after_marker (soup : Option Node) (marker : Str) :
    Option Node × Option Node :=
  if ¬ isTruthy soup then (none, soup)
  else
    match soup with
    | none => (none, none)
    | some root =>
      match findMarkerIn marker (childrenOf root) 0 with
      | none => (some (bodyOr root), some root)
      | some p =>
        let cp := walkUp root p p.length
        let lvl1 := followingElemSiblings root cp
        if !lvl1.isEmpty then
          (some (.elt (strOf "div") [] lvl1),
           some (modifyAt (dropFollowingElems (cp.getLast?.getD 0)) root cp.dropLast))
        else if !cp.isEmpty then
          let pp := cp.dropLast
          let lvl2 := followingElemSiblings root pp
          (some (.elt (strOf "div") [] lvl2),
           if pp.isEmpty then some root
           else some (modifyAt (dropFollowingElems (pp.getLast?.getD 0)) root pp.dropLast))
        else (some (.elt (strOf "div") [] []), some root)

/-! ## extract_links -/
/-- Escape of text nodes in `str(tag)` output. -/
def escMin : Str → Str
  | [] => []
  | c :: cs =>
    (if c = '&' then strOf "&amp;"
     else if c = '<' then strOf "&lt;"
     else if c = '>' then strOf "&gt;" else [c]) ++ escMin cs

/-- Escape of attribute values in `str(tag)` output. -/
def escAttr : Str → Str
  | [] => []
  | c :: cs =>
    (if c = '&' then strOf "&amp;"
     else if c = '"' then strOf "&quot;" else [c]) ++ escAttr cs

def renderAttrs : List (Str × Str) → Str
  | [] => []
  | (k, v) :: rest => ' ' :: k ++ '=' :: '"' :: escAttr v ++ '"' :: renderAttrs rest

mutual
/-- `str(tag)`: serialization with start/end tags, attributes in order,
text escaped. -/
def renderN : Node → Str
  | .txt s => escMin s
  | .elt nm ats cs =>
    '<' :: nm ++ renderAttrs ats ++ '>' :: renderL cs ++ '<' :: '/' :: nm ++ ['>']
def renderL : List Node → Str
  | [] => []
  | c :: cs => renderN c ++ renderL cs
end

mutual
/-- Link records of the anchor descendants that carry an `href`
attribute (`find_all('a', href=True)` matches an attribute that is
present, whatever its value — the empty string included), document
order. -/
def linksOf : Node → List Link
  | .txt _ => []
  | .elt nm ats cs =>
    (if nm = strOf "a" then
      match attrGet ats (strOf "href") with
      | some v => [⟨v, getTextStripN (.elt nm ats cs), renderN (.elt nm ats cs)⟩]
      | none => []
    else []) ++ linksIn cs
def linksIn : List Node → List Link
  | [] => []
  | c :: cs => linksOf c ++ linksIn cs
end

/-- Embedding of the source's `extract_links(element)` (lines 94-109):
each descendant `a` carrying `href` yields
`{'url': link['href'], 'text': link.get_text(strip=True),
'html': str(link)}`. -/
def extract_links (element : Option Node) : List Link :=
  if ¬ isTruthy element then []
  else
    match element with
    | none => []
    | some e => linksIn (childrenOf e)

/-- One anchor record, as the amended C8 statement characterizes the
output: `some` exactly when the node is an `a` element carrying `href`. -/
def anchorOf : Node → Option Link
  | .txt _ => none
  | .elt nm ats cs =>
    if nm = strOf "a" then
      (attrGet ats (strOf "href")).map
        (fun v => ⟨v, getTextStripN (.elt nm ats cs), renderN (.elt nm ats cs)⟩)
    else none

/-- The document of the source's running example: a `div` containing the
marker `<b>Course Syllabus</b>` followed by `<p>x</p>`. -/
def sampleDoc : Node :=
  .elt (strOf "[document]") []
    [.elt (strOf "html") []
      [.elt (strOf "body") []
        [.elt (strOf "div") []
          [.elt (strOf "b") [] [.txt (strOf "Course Syllabus")],
           .elt (strOf "p") [] [.txt (strOf "x")]]]]]

/-- `sampleDoc` after extraction: the `<p>x</p>` sibling has been moved
out of the `div` into the container. -/
def sampleDocAfter : Node :=
  .elt (strOf "[document]") []
    [.elt (strOf "html") []
      [.elt (strOf "body") []
        [.elt (strOf "div") []
          [.elt (strOf "b") [] [.txt (strOf "Course Syllabus")]]]]]

/-- A nonempty document whose candidate elements do not contain the
marker, for the C7 witness. -/
def fallbackDoc : Node :=
  .elt (strOf "[document]") []
    [.elt (strOf "html") []
      [.elt (strOf "body") [] [.elt (strOf "p") [] [.txt (strOf "hello")]]]]

/-- A region with one anchor carrying an empty `href` and one anchor
with no `href` at all. -/
def sample8 : Node :=
  .elt (strOf "[document]") []
    [.elt (strOf "body") []
      [.elt (strOf "a") [(strOf "href", strOf "")] [.txt (strOf "X")],
       .elt (strOf "a") [] [.txt (strOf "Y")]]]

/-! ## Reflexivity of the similarity ratio

On identical inputs the `j2len` chains of `find_longest_match` live on
runs of non-popular positions; `runv s e` is the length of the maximal
such run ending at `e`, the exact value the chain reaches on the
diagonal. -/
def runv (s : Str) : Nat → Nat
  | 0 => if isPopular s (s.getD 0 ' ') then 0 else 1
  | e + 1 => if isPopular s (s.getD (e + 1) ' ') then 0 else runv s e + 1

/-! ## Round trip of the diff view (C1)

`get_opcodes` tiles the two index ranges: each matching block starts at
or after the running cursor, and the trailing sentinel ends exactly at
the two lengths.  `Tiles a b i j blocks` captures this shape. -/
inductive Tiles (a b : Str) : Nat → Nat → List Blk → Prop where
  | nil : Tiles a b a.length b.length []
  | cons {i j : Nat} {m : Blk} {rest : List Blk} :
      i ≤ m.i → j ≤ m.j →
      Tiles a b (m.i + m.k) (m.j + m.k) rest →
      Tiles a b i j (m :: rest)

/-- `x` ends (in both coordinates) before `y` starts. -/
def Before (x y : Blk) : Prop := x.i + x.k ≤ y.i ∧ x.j + x.k ≤ y.j

/-- Two blocks are separated in some order. -/
def SepB (x y : Blk) : Prop := Before x y ∨ Before y x

/-- Two queue rectangles are separated in some order. -/
def RSep (r r' : Rect) : Prop :=
  (r.ahi ≤ r'.alo ∧ r.bhi ≤ r'.blo) ∨ (r'.ahi ≤ r.alo ∧ r'.bhi ≤ r.blo)

/-- A collected block lies entirely on one side of a queue rectangle. -/
def Cross (m : Blk) (r : Rect) : Prop :=
  (m.i + m.k ≤ r.alo ∧ m.j + m.k ≤ r.blo) ∨ (r.ahi ≤ m.i ∧ r.bhi ≤ m.j)

def RectOK (a b : Str) (r : Rect) : Prop :=
  r.alo ≤ r.ahi ∧ r.blo ≤ r.bhi ∧ r.ahi ≤ a.length ∧ r.bhi ≤ b.length

def BlkOK (a b : Str) (m : Blk) : Prop :=
  1 ≤ m.k ∧ m.i + m.k ≤ a.length ∧ m.j + m.k ≤ b.length

/-! ## Lemmas on the link dictionaries -/
theorem buildDict_eq_from (base : Str) (links : List Link) :
    buildDict base links = buildDictFrom base [] links := by
  suffices h : ∀ d, links.foldl (fun d l => match normKey base l with
      | some k => dinsert k l d
      | none => d) d = buildDictFrom base d links by
    exact h []
  induction links with
  | nil => intro d; rfl
  | cons l ls ih =>
    intro d
    simp only [List.foldl_cons, buildDictFrom]
    exact ih _

theorem dinsert_keys (k : Str) (v : Link) (d : List (Str × Link)) :
    (dinsert k v d).map Prod.fst =
      if k ∈ d.map Prod.fst then d.map Prod.fst else d.map Prod.fst ++ [k] := by
  induction d with
  | nil => simp [dinsert]
  | cons hd tl ih =>
    obtain ⟨k0, v0⟩ := hd
    by_cases h : k0 = k
    · subst h
      simp [dinsert]
    · simp only [dinsert, if_neg h, List.map_cons, List.mem_cons, ih]
      by_cases hm : k ∈ tl.map Prod.fst
      · simp [hm, Ne.symm h]
      · simp [hm, Ne.symm h]

theorem dinsert_keys_nodup (k : Str) (v : Link) (d : List (Str × Link))
    (h : (d.map Prod.fst).Nodup) : ((dinsert k v d).map Prod.fst).Nodup := by
  rw [dinsert_keys]
  by_cases hm : k ∈ d.map Prod.fst
  · simpa [hm] using h
  · simp only [hm, if_false]
    exact List.Nodup.append h (List.nodup_singleton k) (by simpa using hm)

theorem dinsert_keys_mem (k x : Str) (v : Link) (d : List (Str × Link)) :
    x ∈ (dinsert k v d).map Prod.fst ↔ x ∈ d.map Prod.fst ∨ x = k := by
  rw [dinsert_keys]
  by_cases hm : k ∈ d.map Prod.fst
  · simp only [hm, if_true]
    constructor
    · exact fun h => Or.inl h
    · rintro (h | rfl)
      · exact h
      · exact hm
  · simp [hm]

theorem buildDictFrom_keys_nodup (b : Str) (links : List Link)
    (d : List (Str × Link)) (h : (d.map Prod.fst).Nodup) :
    ((buildDictFrom b d links).map Prod.fst).Nodup := by
  induction links generalizing d with
  | nil => exact h
  | cons l ls ih =>
    simp only [buildDictFrom]
    cases hk : normKey b l with
    | none => simp only [hk]; exact ih d h
    | some k => simp only [hk]; exact ih (dinsert k l d) (dinsert_keys_nodup k l d h)

theorem buildDict_keys_nodup (b : Str) (links : List Link) :
    ((buildDict b links).map Prod.fst).Nodup := by
  rw [buildDict_eq_from]
  exact buildDictFrom_keys_nodup b links [] (by simp)

theorem buildDictFrom_keys_mem (b : Str) (links : List Link)
    (d : List (Str × Link)) (x : Str) :
    (x ∈ (buildDictFrom b d links).map Prod.fst) ↔
      x ∈ d.map Prod.fst ∨ ∃ l ∈ links, normKey b l = some x := by
  induction links generalizing d with
  | nil => simp [buildDictFrom]
  | cons l ls ih =>
    simp only [buildDictFrom]
    cases hk : normKey b l with
    | none =>
      simp only [hk]
      rw [ih]
      constructor
      · rintro (h | h)
        · exact Or.inl h
        · obtain ⟨l0, hl0, he⟩ := h
          exact Or.inr ⟨l0, List.mem_cons_of_mem _ hl0, he⟩
      · rintro (h | ⟨l0, hl0, he⟩)
        · exact Or.inl h
        · rcases List.mem_cons.mp hl0 with rfl | hl0
          · rw [hk] at he; exact absurd he (by simp)
          · exact Or.inr ⟨l0, hl0, he⟩
    | some k =>
      simp only [hk]
      rw [ih]
      constructor
      · rintro (h | h)
        · rcases (dinsert_keys_mem k x l d).mp h with h2 | rfl
          · exact Or.inl h2
          · exact Or.inr ⟨l, List.mem_cons_self l ls, hk⟩
        · obtain ⟨l0, hl0, he⟩ := h
          exact Or.inr ⟨l0, List.mem_cons_of_mem _ hl0, he⟩
      · rintro (h | ⟨l0, hl0, he⟩)
        · exact Or.inl ((dinsert_keys_mem k x l d).mpr (Or.inl h))
        · rcases List.mem_cons.mp hl0 with h0 | hl0
          · rw [h0, hk] at he
            refine Or.inl ((dinsert_keys_mem k x l d).mpr (Or.inr ?_))
            injection he with h2
            exact h2.symm
          · exact Or.inr ⟨l0, hl0, he⟩

theorem buildDict_keys_mem (b : Str) (links : List Link) (x : Str) :
    (x ∈ (buildDict b links).map Prod.fst) ↔ ∃ l ∈ links, normKey b l = some x := by
  rw [buildDict_eq_from, buildDictFrom_keys_mem]
  simp

/-- Two `Nodup` lists with the same members have the same length. -/
theorem nodup_length_eq_of_mem_iff {α : Type} [DecidableEq α] {A B : List α}
    (ha : A.Nodup) (hb : B.Nodup) (h : ∀ x, x ∈ A ↔ x ∈ B) :
    A.length = B.length :=
  List.Perm.length_eq ((List.perm_ext_iff_of_nodup ha hb).mpr h)

theorem compare_links_only1 (links1 links2 : List Link) (b1 b2 : Str) :
    (compare_links links1 links2 b1 b2).only_in_v1.length =
      ((keysOf b1 links1).filter (fun k => ¬ k ∈ keysOf b2 links2)).length := by
  simp [compare_links, keysOf, List.length_insertionSort]

theorem compare_links_only2 (links1 links2 : List Link) (b1 b2 : Str) :
    (compare_links links1 links2 b1 b2).only_in_v2.length =
      ((keysOf b2 links2).filter (fun k => ¬ k ∈ keysOf b1 links1)).length := by
  simp [compare_links, keysOf, List.length_insertionSort]

theorem compare_links_both (links1 links2 : List Link) (b1 b2 : Str) :
    (compare_links links1 links2 b1 b2).in_both.length =
      ((keysOf b1 links1).filter (fun k => k ∈ keysOf b2 links2)).length := by
  simp [compare_links, keysOf, List.length_insertionSort]

theorem both_length_comm (links1 links2 : List Link) (b1 b2 : Str) :
    ((keysOf b1 links1).filter (fun k => k ∈ keysOf b2 links2)).length =
      ((keysOf b2 links2).filter (fun k => k ∈ keysOf b1 links1)).length := by
  refine nodup_length_eq_of_mem_iff
    (List.Nodup.filter _ (buildDict_keys_nodup b1 links1))
    (List.Nodup.filter _ (buildDict_keys_nodup b2 links2)) ?_
  intro x
  simp only [List.mem_filter, decide_eq_true_eq, keysOf]
  exact ⟨fun ⟨h1, h2⟩ => ⟨h2, h1⟩, fun ⟨h1, h2⟩ => ⟨h2, h1⟩⟩

/-- C5: the normalized-key sets of `only_in_v1`, `only_in_v2` and `in_both`
returned by `compare_links` are pairwise disjoint, their union is exactly
the union of the normalized key sets of the two sides, the three result
lists enumerate exactly those key sets, and consequently
`|only_in_v1| + |in_both|` equals the number of distinct normalized keys of
`links1` and `|only_in_v2| + |in_both|` equals that of `links2`. -/
theorem compare_links_partition (links1 links2 : List Link) (b1 b2 : Str) :
    ((compare_links links1 links2 b1 b2).only_in_v1.length =
        ((keysOf b1 links1).filter (fun k => ¬ k ∈ keysOf b2 links2)).length ∧
     (compare_links links1 links2 b1 b2).only_in_v2.length =
        ((keysOf b2 links2).filter (fun k => ¬ k ∈ keysOf b1 links1)).length ∧
     (compare_links links1 links2 b1 b2).in_both.length =
        ((keysOf b1 links1).filter (fun k => k ∈ keysOf b2 links2)).length) ∧
    (∀ k, ¬ (k ∈ (keysOf b1 links1).filter (fun k => ¬ k ∈ keysOf b2 links2) ∧
             k ∈ (keysOf b2 links2).filter (fun k => ¬ k ∈ keysOf b1 links1))) ∧
    (∀ k, ¬ (k ∈ (keysOf b1 links1).filter (fun k => ¬ k ∈ keysOf b2 links2) ∧
             k ∈ (keysOf b1 links1).filter (fun k => k ∈ keysOf b2 links2))) ∧
    (∀ k, ¬ (k ∈ (keysOf b2 links2).filter (fun k => ¬ k ∈ keysOf b1 links1) ∧
             k ∈ (keysOf b1 links1).filter (fun k => k ∈ keysOf b2 links2))) ∧
    (∀ k, (k ∈ (keysOf b1 links1).filter (fun k => ¬ k ∈ keysOf b2 links2) ∨
           k ∈ (keysOf b2 links2).filter (fun k => ¬ k ∈ keysOf b1 links1) ∨
           k ∈ (keysOf b1 links1).filter (fun k => k ∈ keysOf b2 links2)) ↔
          (k ∈ keysOf b1 links1 ∨ k ∈ keysOf b2 links2)) ∧
    (compare_links links1 links2 b1 b2).only_in_v1.length +
        (compare_links links1 links2 b1 b2).in_both.length =
      (keysOf b1 links1).length ∧
    (compare_links links1 links2 b1 b2).only_in_v2.length +
        (compare_links links1 links2 b1 b2).in_both.length =
      (keysOf b2 links2).length := by
  refine ⟨⟨compare_links_only1 links1 links2 b1 b2,
           compare_links_only2 links1 links2 b1 b2,
           compare_links_both links1 links2 b1 b2⟩, ?_, ?_, ?_, ?_, ?_, ?_⟩
  · intro k ⟨h1, h2⟩
    simp only [List.mem_filter, decide_eq_true_eq] at h1 h2
    exact h2.2 h1.1
  · intro k ⟨h1, h2⟩
    simp only [List.mem_filter, decide_eq_true_eq] at h1 h2
    exact h1.2 h2.2
  · intro k ⟨h1, h2⟩
    simp only [List.mem_filter, decide_eq_true_eq] at h1 h2
    exact h1.2 h2.1
  · intro k
    simp only [List.mem_filter, decide_eq_true_eq]
    constructor
    · rintro (⟨h, _⟩ | ⟨h, _⟩ | ⟨h, _⟩)
      · exact Or.inl h
      · exact Or.inr h
      · exact Or.inl h
    · rintro (h | h)
      · by_cases h2 : k ∈ keysOf b2 links2
        · exact Or.inr (Or.inr ⟨h, h2⟩)
        · exact Or.inl ⟨h, h2⟩
      · by_cases h1 : k ∈ keysOf b1 links1
        · exact Or.inr (Or.inr ⟨h1, h⟩)
        · exact Or.inr (Or.inl ⟨h, h1⟩)
  · rw [compare_links_only1, compare_links_both]
    have := List.length_eq_length_filter_add
      (l := keysOf b1 links1) (fun k => decide (k ∈ keysOf b2 links2))
    rw [this]
    have he : (keysOf b1 links1).filter (fun k => !decide (k ∈ keysOf b2 links2)) =
        (keysOf b1 links1).filter (fun k => decide (¬ k ∈ keysOf b2 links2)) := by
      simp
    rw [he]
    omega
  · rw [compare_links_only2, compare_links_both, both_length_comm]
    have := List.length_eq_length_filter_add
      (l := keysOf b2 links2) (fun k => decide (k ∈ keysOf b1 links1))
    rw [this]
    have he : (keysOf b2 links2).filter (fun k => !decide (k ∈ keysOf b1 links1)) =
        (keysOf b2 links2).filter (fun k => decide (¬ k ∈ keysOf b1 links1)) := by
      simp
    rw [he]
    omega

/-- C10: `total_v1` and `total_v2` count distinct successfully normalized
keys, not raw link records; duplicates by normalized key count once and
failing links are not counted, so `total_v1` can be strictly below
`links1.length` (witnessed at a list with a duplicate and an unparsable
URL). -/
theorem compare_links_totals :
    (∀ (links1 links2 : List Link) (b1 b2 : Str),
      (compare_links links1 links2 b1 b2).total_v1 =
          ((links1.filterMap (normKey b1)).dedup).length ∧
      (compare_links links1 links2 b1 b2).total_v2 =
          ((links2.filterMap (normKey b2)).dedup).length) ∧
    (compare_links
        [⟨strOf "http://a", [], []⟩, ⟨strOf "http://a/", [], []⟩,
         ⟨strOf "http://[x", [], []⟩] [] [] []).total_v1 = 1 ∧
    (1 : Nat) <
      ([⟨strOf "http://a", [], []⟩, ⟨strOf "http://a/", [], []⟩,
        ⟨strOf "http://[x", [], []⟩] : List Link).length := by
  refine ⟨?_, by decide, by decide⟩
  intro links1 links2 b1 b2
  have key : ∀ (b : Str) (links : List Link),
      (keysOf b links).length = ((links.filterMap (normKey b)).dedup).length := by
    intro b links
    refine nodup_length_eq_of_mem_iff (buildDict_keys_nodup b links)
      (List.nodup_dedup _) ?_
    intro x
    rw [List.mem_dedup, List.mem_filterMap]
    exact buildDict_keys_mem b links x
  exact ⟨key b1 links1, key b2 links2⟩

/-! ## Error behaviour of `normalize_url` and `compare_links` (claim C6) -/
theorem buildDictFrom_filter_ok (b : Str) (links : List Link) (d : List (Str × Link)) :
    buildDictFrom b d (links.filter (fun l => (normalize_url l.url b).isOk)) =
      buildDictFrom b d links := by
  induction links generalizing d with
  | nil => rfl
  | cons l ls ih =>
    cases hn : normalize_url l.url b with
    | ok k =>
      have hf : (normalize_url l.url b).isOk = true := by rw [hn]; rfl
      have hk : normKey b l = some k := by rw [normKey, hn]; rfl
      simp only [List.filter_cons, hf, if_true, buildDictFrom, hk]
      exact ih (dinsert k l d)
    | error e =>
      have hf : (normalize_url l.url b).isOk = false := by rw [hn]; rfl
      have hk : normKey b l = none := by rw [normKey, hn]; rfl
      simp only [List.filter_cons, hf, Bool.false_eq_true, if_false, buildDictFrom, hk]
      exact ih d

theorem buildDict_filter_ok (b : Str) (links : List Link) :
    buildDict b (links.filter (fun l => (normalize_url l.url b).isOk)) =
      buildDict b links := by
  rw [buildDict_eq_from, buildDict_eq_from]
  exact buildDictFrom_filter_ok b links []

/-- C6 counterexample: `normalize_url` can raise even though the URL, the
base URL, and their relative resolution all parse without error: with
`base = "b/c"` and `url = "/x/../../\x01//[x"`, `urljoin` succeeds, both
inputs parse into components, yet `normalize_url` raises `Invalid IPv6
URL` when it reparses the joined string.  So "fails exactly when the URL
cannot be parsed" is false as stated. -/
theorem normalize_url_fails_on_parsable_input :
    (urlparseE [] (strOf "/x/../../\x01//[x")).isOk = true ∧
    (urlparseE [] (strOf "b/c")).isOk = true ∧
    (urljoinE (strOf "b/c") (strOf "/x/../../\x01//[x")).isOk = true ∧
    (normalize_url (strOf "/x/../../\x01//[x") (strOf "b/c")).isOk = false := by
  refine ⟨by decide, by decide, by decide, by decide⟩

/-- C6 amended: for an absolute URL or an empty base (the only cases the
repository exercises — `compare_links` is called with default empty
bases), `normalize_url` fails exactly when `urlparse` fails on the URL;
and `compare_links` catches each per-link failure, dropping only the
offending record: its result is unchanged when the failing links are
removed, and it never aborts. -/
theorem normalize_url_failure_contract :
    (∀ url base : Str, isHttpAbsolute url = true ∨ base = [] →
        (normalize_url url base).isOk = (urlparseE [] url).isOk) ∧
    (∀ (links1 links2 : List Link) (b1 b2 : Str),
        compare_links links1 links2 b1 b2 =
          compare_links (links1.filter (fun l => (normalize_url l.url b1).isOk))
            (links2.filter (fun l => (normalize_url l.url b2).isOk)) b1 b2) := by
  constructor
  · intro url base h
    have hres : resolveUrl url base = .ok url := by
      rcases h with h | h
      · rw [resolveUrl, if_pos h]
      · rw [resolveUrl]
        by_cases ha : isHttpAbsolute url
        · rw [if_pos ha]
        · rw [if_neg ha, h, if_neg (by simp)]
    rw [normalize_url]
    cases hp : urlparseE [] url with
    | ok p =>
      simp [hres, hp, Except.isOk, Except.toBool, Bind.bind, Except.bind,
        Functor.map, Except.map, Pure.pure, Except.pure]
    | error e =>
      simp [hres, hp, Except.isOk, Except.toBool, Bind.bind, Except.bind,
        Functor.map, Except.map, Pure.pure, Except.pure]
  · intro links1 links2 b1 b2
    rw [compare_links, compare_links, buildDict_filter_ok, buildDict_filter_ok]

theorem normalize_url_failure_contract_witness :
    ((normalize_url (strOf "http://[x") []).isOk =
        (urlparseE [] (strOf "http://[x")).isOk ∧
      (normalize_url (strOf "http://good.com/a") []).isOk =
        (urlparseE [] (strOf "http://good.com/a")).isOk) ∧
    compare_links [⟨strOf "http://a", [], []⟩, ⟨strOf "http://[x", [], []⟩] [] [] [] =
      compare_links
        (([⟨strOf "http://a", [], []⟩, ⟨strOf "http://[x", [], []⟩] :
            List Link).filter (fun l => (normalize_url l.url []).isOk))
        (([] : List Link).filter (fun l => (normalize_url l.url []).isOk)) [] [] :=
  ⟨⟨normalize_url_failure_contract.1 (strOf "http://[x") [] (Or.inr rfl),
    normalize_url_failure_contract.1 (strOf "http://good.com/a") [] (Or.inr rfl)⟩,
   normalize_url_failure_contract.2 _ _ [] []⟩

theorem char_toNat_ofNat {n : Nat} (h : n < 55296) : (Char.ofNat n).toNat = n := by
  have hv : n.isValidChar := Or.inl h
  rw [Char.ofNat, dif_pos hv]
  rfl

theorem toLower_slash_iff (c : Char) : c.toLower = '/' ↔ c = '/' := by
  constructor
  · intro h
    rw [Char.toLower] at h
    by_cases hc : c.toNat ≥ 65 ∧ c.toNat ≤ 90
    · rw [if_pos hc] at h
      have h2 : (Char.ofNat (c.toNat + 32)).toNat = ('/' : Char).toNat := by rw [h]
      rw [char_toNat_ofNat (by omega)] at h2
      have h47 : ('/' : Char).toNat = 47 := by decide
      omega
    · rwa [if_neg hc] at h
  · intro h; subst h; decide

theorem toLower_idem (c : Char) : c.toLower.toLower = c.toLower := by
  by_cases hc : c.toNat ≥ 65 ∧ c.toNat ≤ 90
  · have h1 : c.toLower = Char.ofNat (c.toNat + 32) := by rw [Char.toLower, if_pos hc]
    have h2 : c.toLower.toNat = c.toNat + 32 := by
      rw [h1]; exact char_toNat_ofNat (by omega)
    show (if c.toLower.toNat ≥ 65 ∧ c.toLower.toNat ≤ 90 then
        Char.ofNat (c.toLower.toNat + 32) else c.toLower) = c.toLower
    rw [if_neg (by omega)]
  · have h1 : c.toLower = c := by rw [Char.toLower, if_neg hc]
    rw [h1]
    exact h1

theorem dropWhile_idem {α : Type} (p : α → Bool) (l : List α) :
    (l.dropWhile p).dropWhile p = l.dropWhile p := by
  induction l with
  | nil => rfl
  | cons x xs ih =>
    by_cases h : p x
    · simp [List.dropWhile_cons, h, ih]
    · simp [List.dropWhile_cons, h]

theorem dropWhile_pred_congr {α : Type} {p q : α → Bool} (h : ∀ a, p a = q a)
    (l : List α) : l.dropWhile p = l.dropWhile q := by
  induction l with
  | nil => rfl
  | cons x xs ih => rw [List.dropWhile_cons, List.dropWhile_cons, h x, ih]

theorem dropWhile_map {α β : Type} (f : α → β) (p : β → Bool) (l : List α) :
    (l.map f).dropWhile p = (l.dropWhile (fun a => p (f a))).map f := by
  induction l with
  | nil => rfl
  | cons x xs ih =>
    rw [List.map_cons, List.dropWhile_cons, List.dropWhile_cons]
    by_cases h : p (f x)
    · rw [if_pos h, if_pos h, ih]
    · rw [if_neg h, if_neg h, List.map_cons]

theorem rstripSlash_idem (s : Str) : rstripSlash (rstripSlash s) = rstripSlash s := by
  rw [rstripSlash, rstripSlash, List.reverse_reverse, dropWhile_idem]

theorem rstripSlash_lower (s : Str) :
    rstripSlash (lowerStr s) = lowerStr (rstripSlash s) := by
  rw [rstripSlash, rstripSlash, lowerStr, lowerStr, ← List.map_reverse,
    dropWhile_map, List.map_reverse]
  congr 2
  apply dropWhile_pred_congr
  intro c
  simp only [decide_eq_decide]
  exact toLower_slash_iff c

theorem lowerStr_idem (s : Str) : lowerStr (lowerStr s) = lowerStr s := by
  rw [lowerStr, lowerStr, List.map_map]
  apply List.map_congr_left
  intro c _
  exact toLower_idem c

/-- C3 counterexample: at `url = "http://a.com/p//"` (path ending in two
slashes) with empty base, `normalize_url` strips **both** trailing
slashes, while the claim's "strip exactly one trailing slash" rule keeps
one; so the claim is false as stated. -/
theorem normalize_url_strips_all_slashes :
    normalize_url (strOf "http://a.com/p//") [] = .ok (strOf "http://a.com/p") ∧
    spec_normalize_one_slash (strOf "http://a.com/p//") [] =
      .ok (strOf "http://a.com/p/") ∧
    normalize_url (strOf "http://a.com/p//") [] ≠
      spec_normalize_one_slash (strOf "http://a.com/p//") [] := by
  refine ⟨by decide, by decide, ?_⟩
  intro h
  have h1 : normalize_url (strOf "http://a.com/p//") [] =
      .ok (strOf "http://a.com/p") := by decide
  have h2 : spec_normalize_one_slash (strOf "http://a.com/p//") [] =
      .ok (strOf "http://a.com/p/") := by decide
  rw [h1, h2] at h
  exact absurd (by injection h) (by decide)

/-- C3 amended: `normalize_url` decomposes the (possibly base-resolved)
URL into scheme, host, path, query, reassembles it as
`scheme://host/path` with `?query` appended only when a query is present,
strips **all** trailing slashes (not exactly one), and lowercases the
entire result; every successful result is trailing-slash-free and
lowercase-fixed. -/
theorem normalize_url_shape :
    (∀ url base : Str,
        normalize_url url base = spec_normalize_all_slashes url base) ∧
    (∀ url base s : Str, normalize_url url base = .ok s →
        rstripSlash s = s ∧ lowerStr s = s) := by
  constructor
  · intro url base
    rfl
  · intro url base s h
    rw [normalize_url] at h
    cases hres : resolveUrl url base with
    | error e =>
      rw [hres] at h
      exact absurd h (by simp [Bind.bind, Except.bind])
    | ok j =>
      rw [hres] at h
      simp only [Bind.bind, Except.bind] at h
      cases hp : urlparseE [] j with
      | error e =>
        rw [hp] at h
        exact absurd h (by simp)
      | ok p =>
        rw [hp] at h
        simp only [Pure.pure, Except.pure, Except.ok.injEq] at h
        subst h
        constructor
        · rw [rstripSlash_lower, rstripSlash_idem]
        · rw [lowerStr_idem]

theorem normalize_url_shape_witness :
    normalize_url (strOf "http://A.com/P//") [] =
      spec_normalize_all_slashes (strOf "http://A.com/P//") [] ∧
    rstripSlash (strOf "http://a.com/p") = strOf "http://a.com/p" ∧
    lowerStr (strOf "http://a.com/p") = strOf "http://a.com/p" :=
  ⟨normalize_url_shape.1 (strOf "http://A.com/P//") [],
   normalize_url_shape.2 (strOf "http://A.com/P//") [] (strOf "http://a.com/p")
     (by decide)⟩

/-! ## String lemmas for the idempotence analysis (claim C9) -/
theorem takeWhile_append_all {α : Type} {p : α → Bool} {a : List α}
    (h : ∀ x ∈ a, p x = true) (b : List α) :
    (a ++ b).takeWhile p = a ++ b.takeWhile p := by
  induction a with
  | nil => rfl
  | cons x xs ih =>
    rw [List.cons_append, List.takeWhile_cons, if_pos (h x (by simp)),
      ih (fun y hy => h y (by simp [hy])), List.cons_append]

theorem dropWhile_append_all {α : Type} {p : α → Bool} {a : List α}
    (h : ∀ x ∈ a, p x = true) (b : List α) :
    (a ++ b).dropWhile p = b.dropWhile p := by
  induction a with
  | nil => rfl
  | cons x xs ih =>
    rw [List.cons_append, List.dropWhile_cons, if_pos (h x (by simp)),
      ih (fun y hy => h y (by simp [hy]))]

theorem takeWhile_cons_stop {α : Type} {p : α → Bool} {x : α} (h : p x = false)
    (b : List α) : (x :: b).takeWhile p = [] := by
  rw [List.takeWhile_cons, if_neg (by simp [h])]

theorem dropWhile_cons_stop {α : Type} {p : α → Bool} {x : α} (h : p x = false)
    (b : List α) : (x :: b).dropWhile p = x :: b := by
  rw [List.dropWhile_cons, if_neg (by simp [h])]

theorem takeWhile_all_eq_self {α : Type} {p : α → Bool} {a : List α}
    (h : ∀ x ∈ a, p x = true) : a.takeWhile p = a := by
  have := takeWhile_append_all h ([] : List α)
  simpa using this

theorem dropWhile_all_eq_nil {α : Type} {p : α → Bool} {a : List α}
    (h : ∀ x ∈ a, p x = true) : a.dropWhile p = [] := by
  have := dropWhile_append_all h ([] : List α)
  simpa using this

/-- `hasChar` transfers down sublists. -/
theorem hasChar_sublist {c : Char} {a b : Str} (hs : a.Sublist b)
    (h : hasChar c b = false) : hasChar c a = false := by
  rw [hasChar] at h ⊢
  simp only [List.any_eq_false, decide_eq_true_eq] at h ⊢
  intro x hx
  exact h x (hs.mem hx)

theorem hasChar_iff_mem {c : Char} {s : Str} : hasChar c s = true ↔ c ∈ s := by
  rw [hasChar]
  simp only [List.any_eq_true, decide_eq_true_eq]
  constructor
  · rintro ⟨x, hx, rfl⟩; exact hx
  · intro h; exact ⟨c, h, rfl⟩

theorem hasChar_false_iff {c : Char} {s : Str} : hasChar c s = false ↔ ¬ c ∈ s := by
  rw [← hasChar_iff_mem]
  cases hasChar c s <;> simp

/-- `toLower` is, in both directions, the identity at target characters
that are neither lowercase nor uppercase basic latin letters. -/
theorem toLower_eq_low {d : Char} (hd : d.toNat < 65 ∨ (90 < d.toNat ∧ d.toNat < 97))
    (c : Char) : c.toLower = d ↔ c = d := by
  constructor
  · intro h
    rw [Char.toLower] at h
    by_cases hc : c.toNat ≥ 65 ∧ c.toNat ≤ 90
    · rw [if_pos hc] at h
      have h2 : (Char.ofNat (c.toNat + 32)).toNat = d.toNat := by rw [h]
      rw [char_toNat_ofNat (by omega)] at h2
      omega
    · rwa [if_neg hc] at h
  · intro h
    subst h
    rw [Char.toLower, if_neg (by omega)]

theorem netlocDelim_toLower (c : Char) : netlocDelim c.toLower = netlocDelim c := by
  rw [netlocDelim, netlocDelim]
  have h1 := toLower_eq_low (d := '/') (by decide) c
  have h2 := toLower_eq_low (d := '?') (by decide) c
  have h3 := toLower_eq_low (d := '#') (by decide) c
  by_cases e1 : c = '/' <;> by_cases e2 : c = '?' <;> by_cases e3 : c = '#' <;>
    simp_all

theorem hasChar_lower_low {c : Char} (hc : c.toNat < 65 ∨ (90 < c.toNat ∧ c.toNat < 97)) {s : Str}
    (h : hasChar c s = false) : hasChar c (lowerStr s) = false := by
  rw [hasChar_false_iff] at h ⊢
  intro hm
  rw [lowerStr, List.mem_map] at hm
  obtain ⟨x, hx, he⟩ := hm
  rw [toLower_eq_low hc] at he
  exact h (he ▸ hx)

/-- Strip lemma: when the suffix does not strip to nothing, the prefix is
untouched. -/
theorem rstripSlash_append_of_ne {x y : Str} (h : rstripSlash y ≠ []) :
    rstripSlash (x ++ y) = x ++ rstripSlash y := by
  rw [rstripSlash, rstripSlash] at *
  rw [List.reverse_append]
  rw [List.dropWhile_append]
  have hne : y.reverse.dropWhile (fun c => decide (c = '/')) ≠ [] := by
    intro he
    rw [he] at h
    exact h rfl
  rw [if_neg (by simpa using hne), List.reverse_append, List.reverse_reverse]

/-- Strip lemma: when the suffix strips away entirely, stripping continues
into the prefix. -/
theorem rstripSlash_append_of_nil {x y : Str} (h : rstripSlash y = []) :
    rstripSlash (x ++ y) = rstripSlash x := by
  rw [rstripSlash] at h
  have h2 : y.reverse.dropWhile (fun c => decide (c = '/')) = [] := by
    have := congrArg List.reverse h
    simpa using this
  rw [rstripSlash, rstripSlash, List.reverse_append, List.dropWhile_append, h2]
  simp

/-- A string with no slash at all is strip-fixed. -/
theorem rstripSlash_of_no_slash {y : Str} (h : ∀ x ∈ y, x ≠ '/') :
    rstripSlash y = y := by
  rw [rstripSlash]
  cases hy : y.reverse with
  | nil =>
    have h0 : y = [] := by simpa using congrArg List.reverse hy
    subst h0
    rfl
  | cons x xs =>
    have hx : x ∈ y := by
      rw [← List.mem_reverse, hy]
      simp
    rw [dropWhile_cons_stop (by simp [h x hx]) xs, ← hy, List.reverse_reverse]

theorem urlsplitE_scheme {P S : Str}
    (hP1 : ∀ t, lstripC0 (P ++ t) = P ++ t)
    (hP2 : ∀ t, removeUnsafe (P ++ t) = P ++ removeUnsafe t)
    (hP3 : ∀ m, splitScheme [] (P ++ m) = (S, '/' :: '/' :: m))
    (t : Str) :
    urlsplitE [] (P ++ t) = splitAbs S t := by
  rw [urlsplitE, hP1, hP2, hP3, splitAbs]
  simp only [List.take_succ_cons, List.take_zero]
  have hc : (['/', '/'] : Str) = strOf "//" := rfl
  rw [if_pos hc]
  simp only [List.drop_succ_cons, List.drop_zero]

theorem lstripC0_http (t : Str) :
    lstripC0 (strOf "http://" ++ t) = strOf "http://" ++ t := by
  rw [lstripC0, strOf]
  show List.dropWhile _ ('h' :: _) = _
  rw [dropWhile_cons_stop (by decide) _]
  rfl

theorem removeUnsafe_http (t : Str) :
    removeUnsafe (strOf "http://" ++ t) = strOf "http://" ++ removeUnsafe t := by
  rw [removeUnsafe, removeUnsafe, List.filter_append]
  congr 1

theorem beforeChar_http (m : Str) :
    beforeChar ':' (strOf "http://" ++ m) = strOf "http" := by
  rw [beforeChar, strOf, strOf]
  show List.takeWhile _ ('h' :: 't' :: 't' :: 'p' :: ':' :: '/' :: '/' :: m) = _
  rw [List.takeWhile_cons, if_pos (by decide), List.takeWhile_cons, if_pos (by decide),
    List.takeWhile_cons, if_pos (by decide), List.takeWhile_cons, if_pos (by decide),
    List.takeWhile_cons, if_neg (by decide)]
  rfl

theorem splitScheme_http (m : Str) :
    splitScheme [] (strOf "http://" ++ m) = (strOf "http", '/' :: '/' :: m) := by
  rw [splitScheme, beforeChar_http]
  rw [if_pos ?side]
  case side =>
    refine ⟨?_, by decide⟩
    simp [strOf]
  congr 1

theorem urlsplitE_http (t : Str) :
    urlsplitE [] (strOf "http://" ++ t) = splitAbs (strOf "http") t :=
  urlsplitE_scheme lstripC0_http removeUnsafe_http splitScheme_http t

theorem lstripC0_https (t : Str) :
    lstripC0 (strOf "https://" ++ t) = strOf "https://" ++ t := by
  rw [lstripC0, strOf]
  show List.dropWhile _ ('h' :: _) = _
  rw [dropWhile_cons_stop (by decide) _]
  rfl

theorem removeUnsafe_https (t : Str) :
    removeUnsafe (strOf "https://" ++ t) = strOf "https://" ++ removeUnsafe t := by
  rw [removeUnsafe, removeUnsafe, List.filter_append]
  congr 1

theorem beforeChar_https (m : Str) :
    beforeChar ':' (strOf "https://" ++ m) = strOf "https" := by
  rw [beforeChar, strOf, strOf]
  show List.takeWhile _ ('h' :: 't' :: 't' :: 'p' :: 's' :: ':' :: '/' :: '/' :: m) = _
  rw [List.takeWhile_cons, if_pos (by decide), List.takeWhile_cons, if_pos (by decide),
    List.takeWhile_cons, if_pos (by decide), List.takeWhile_cons, if_pos (by decide),
    List.takeWhile_cons, if_pos (by decide), List.takeWhile_cons, if_neg (by decide)]
  rfl

theorem splitScheme_https (m : Str) :
    splitScheme [] (strOf "https://" ++ m) = (strOf "https", '/' :: '/' :: m) := by
  rw [splitScheme, beforeChar_https]
  rw [if_pos ?side]
  case side =>
    refine ⟨?_, by decide⟩
    simp [strOf]
  congr 1

theorem urlsplitE_https (t : Str) :
    urlsplitE [] (strOf "https://" ++ t) = splitAbs (strOf "https") t :=
  urlsplitE_scheme lstripC0_https removeUnsafe_https splitScheme_https t

/-- When the split succeeds and the path has no semicolon, `urlparseE`
returns the split's components with empty params. -/
theorem urlparseE_of_split {d u : Str} {s : SplitRes} (hs : urlsplitE d u = .ok s)
    (hsemi : hasChar ';' s.path = false) :
    urlparseE d u = .ok ⟨s.scheme, s.netloc, s.path, [], s.query, s.fragment⟩ := by
  rw [urlparseE]
  show Except.bind (urlsplitE d u) _ = _
  rw [hs]
  show (if usesParams s.scheme ∧ hasChar ';' s.path then _ else _) = _
  rw [if_neg (by simp [hsemi])]
  rfl

theorem beforeChar_of_none {c : Char} {s : Str} (h : hasChar c s = false) :
    beforeChar c s = s := by
  rw [beforeChar]
  apply takeWhile_all_eq_self
  intro x hx
  rw [hasChar_false_iff] at h
  simp only [decide_eq_true_eq]
  intro he
  exact h (he ▸ hx)

theorem afterChar_of_none {c : Char} {s : Str} (h : hasChar c s = false) :
    afterChar c s = [] := by
  rw [afterChar]
  rw [dropWhile_all_eq_nil]
  · rfl
  · intro x hx
    rw [hasChar_false_iff] at h
    simp only [decide_eq_true_eq]
    intro he
    exact h (he ▸ hx)

theorem beforeChar_append_of_none {c : Char} {a : Str} (h : hasChar c a = false)
    (b : Str) : beforeChar c (a ++ c :: b) = a := by
  rw [beforeChar, takeWhile_append_all, takeWhile_cons_stop (by simp) b,
    List.append_nil]
  intro x hx
  rw [hasChar_false_iff] at h
  simp only [decide_eq_true_eq]
  intro he
  exact h (he ▸ hx)

theorem afterChar_append_of_none {c : Char} {a : Str} (h : hasChar c a = false)
    (b : Str) : afterChar c (a ++ c :: b) = b := by
  rw [afterChar, dropWhile_append_all, dropWhile_cons_stop (by simp) b]
  · rfl
  · intro x hx
    rw [hasChar_false_iff] at h
    simp only [decide_eq_true_eq]
    intro he
    exact h (he ▸ hx)

theorem dropWhile_head_false {α : Type} {p : α → Bool} {l : List α} {x : α}
    {xs : List α} (h : l.dropWhile p = x :: xs) : p x = false := by
  induction l with
  | nil => exact absurd h (by simp)
  | cons y ys ih =>
    rw [List.dropWhile_cons] at h
    by_cases hy : p y
    · rw [if_pos hy] at h
      exact ih h
    · rw [if_neg hy] at h
      injection h with h1 h2
      subst h1
      exact Bool.of_not_eq_true hy

theorem resolveUrl_nil (u : Str) : resolveUrl u [] = .ok u := by
  rw [resolveUrl]
  by_cases h : isHttpAbsolute u
  · rw [if_pos h]
  · rw [if_neg h, if_neg (by simp)]

theorem hasChar_lower_iff {c : Char} (hc : c.toNat < 65 ∨ (90 < c.toNat ∧ c.toNat < 97))
    (s : Str) : hasChar c (lowerStr s) = hasChar c s := by
  cases h : hasChar c s with
  | false => exact hasChar_lower_low hc h
  | true =>
    rw [hasChar_iff_mem] at h ⊢
    rw [lowerStr, List.mem_map]
    exact ⟨c, h, (toLower_eq_low hc c).mpr rfl⟩

theorem lower_netlocDelim_all {s : Str} (h : ∀ x ∈ s, netlocDelim x = false) :
    ∀ x ∈ lowerStr s, netlocDelim x = false := by
  intro x hx
  rw [lowerStr, List.mem_map] at hx
  obtain ⟨y, hy, rfl⟩ := hx
  rw [netlocDelim_toLower]
  exact h y hy

theorem hasChar_rstrip {c : Char} {s : Str} (h : hasChar c s = false) :
    hasChar c (rstripSlash s) = false := by
  rw [hasChar_false_iff] at h ⊢
  intro hm
  rw [rstripSlash, List.mem_reverse] at hm
  exact h (by rw [← List.mem_reverse]; exact (List.dropWhile_sublist _).mem hm)

theorem removeUnsafe_eq_self {s : Str} (h9 : hasChar '\t' s = false)
    (h13 : hasChar '\r' s = false) (h10 : hasChar '\n' s = false) :
    removeUnsafe s = s := by
  rw [removeUnsafe]
  apply List.filter_eq_self.mpr
  intro x hx
  rw [hasChar_false_iff] at h9 h13 h10
  simp only [decide_eq_true_eq]
  rintro (rfl | rfl | rfl)
  · exact h9 hx
  · exact h13 hx
  · exact h10 hx

theorem lowerStr_append (a b : Str) :
    lowerStr (a ++ b) = lowerStr a ++ lowerStr b := List.map_append _ a b

theorem lowerStr_ne_nil {s : Str} (h : s ≠ []) : lowerStr s ≠ [] := by
  cases s with
  | nil => exact absurd rfl h
  | cons x xs => simp [lowerStr]

theorem rstripSlash_head {x : Char} {s : Str} (h : rstripSlash (x :: s) ≠ []) :
    ∃ ys, rstripSlash (x :: s) = x :: ys := by
  rw [rstripSlash] at h ⊢
  rw [List.reverse_cons, List.dropWhile_append] at h ⊢
  by_cases he : s.reverse.dropWhile (fun c => decide (c = '/')) = []
  · rw [if_pos (by simp [he])] at h ⊢
    by_cases hx : x = '/'
    · rw [List.dropWhile_cons, if_pos (by simp [hx])] at h
      exact absurd rfl h
    · rw [List.dropWhile_cons, if_neg (by simp [hx])]
      exact ⟨[], rfl⟩
  · rw [if_neg (by simpa using he)] at h ⊢
    refine ⟨(s.reverse.dropWhile (fun c => decide (c = '/'))).reverse, ?_⟩
    rw [List.reverse_append]
    rfl

theorem rstripSlash_lower_fix {s : Str} :
    rstripSlash (lowerStr (rstripSlash s)) = lowerStr (rstripSlash s) := by
  rw [rstripSlash_lower, rstripSlash_idem]

theorem lowerStr_colon_slash_slash : lowerStr (strOf "://") = strOf "://" := by decide

theorem rstripSlash_all_slash {y : Str} (h : ∀ x ∈ y, x = '/') :
    rstripSlash y = [] := by
  rw [rstripSlash]
  rw [dropWhile_all_eq_nil]
  · rfl
  · intro x hx
    rw [List.mem_reverse] at hx
    simp [h x hx]

theorem normalize_url_nil (u : Str) :
    normalize_url u [] =
      Except.map (fun p => lowerStr (rstripSlash (reassemble p))) (urlparseE [] u) := by
  rw [normalize_url]
  show Except.bind (resolveUrl u []) _ = _
  rw [resolveUrl_nil]
  show Except.bind (urlparseE [] u) _ = _
  cases urlparseE [] u <;> rfl

theorem normalize_fix_of_parse {u : Str} {p : ParseRes}
    (hparse : urlparseE [] u = .ok p)
    (hre : lowerStr (rstripSlash (reassemble p)) = u) :
    normalize_url u [] = .ok u := by
  rw [normalize_url_nil, hparse, Except.map, hre]

theorem hasChar_append_false {c : Char} {a b : Str} (ha : hasChar c a = false)
    (hb : hasChar c b = false) : hasChar c (a ++ b) = false := by
  rw [hasChar, List.any_append]
  rw [hasChar] at ha hb
  rw [ha, hb]
  rfl

theorem hasChar_cons_false {c x : Char} {b : Str} (hx : x ≠ c)
    (hb : hasChar c b = false) : hasChar c (x :: b) = false := by
  rw [hasChar, List.any_cons]
  rw [hasChar] at hb
  rw [hb]
  simp [Ne.symm hx]
  intro he
  exact hx he

theorem hasChar_beforeChar_self (c : Char) (s : Str) :
    hasChar c (beforeChar c s) = false := by
  rw [hasChar_false_iff, beforeChar]
  intro hm
  have := List.mem_takeWhile_imp hm
  simp at this

theorem netlocDelim_split {c : Char} (h : netlocDelim c = true) :
    c = '/' ∨ c = '?' ∨ c = '#' := by
  rw [netlocDelim] at h
  simp only [Bool.or_eq_true, decide_eq_true_eq] at h
  tauto

/-- Parse of a reassembled normal form `P ++ (nl2 ++ rest2)`. -/
theorem urlparseE_abs_of {P S : Str}
    (hsplit : ∀ t, urlsplitE [] (P ++ t) = splitAbs S t)
    {nl2 rest2 : Str}
    (hclean : removeUnsafe (nl2 ++ rest2) = nl2 ++ rest2)
    (hnl : ∀ x ∈ nl2, netlocDelim x = false)
    (hstop : rest2 = [] ∨ ∃ c cs, rest2 = c :: cs ∧ netlocDelim c = true)
    (hbr : ¬ ((hasChar '[' nl2 = true ∧ ¬ hasChar ']' nl2 = true) ∨
              (hasChar ']' nl2 = true ∧ ¬ hasChar '[' nl2 = true)))
    (hhash : hasChar '#' rest2 = false)
    (hsemi2 : hasChar ';' (beforeChar '?' rest2) = false) :
    urlparseE [] (P ++ (nl2 ++ rest2)) =
      .ok ⟨S, nl2, beforeChar '?' rest2, [], afterChar '?' rest2, []⟩ := by
  have htake : (nl2 ++ rest2).takeWhile (fun c => ¬ netlocDelim c) = nl2 := by
    rw [takeWhile_append_all (fun x hx => by simp [hnl x hx])]
    rcases hstop with h | ⟨c, cs, rfl, hc⟩
    · rw [h]
      simp
    · rw [takeWhile_cons_stop (by simp [hc]) cs, List.append_nil]
  have hdrop : (nl2 ++ rest2).dropWhile (fun c => ¬ netlocDelim c) = rest2 := by
    rw [dropWhile_append_all (fun x hx => by simp [hnl x hx])]
    rcases hstop with h | ⟨c, cs, rfl, hc⟩
    · rw [h]
      simp
    · rw [dropWhile_cons_stop (by simp [hc]) cs]
  have hsp : urlsplitE [] (P ++ (nl2 ++ rest2)) =
      .ok ⟨S, nl2, beforeChar '?' rest2, afterChar '?' rest2, []⟩ := by
    rw [hsplit, splitAbs]
    simp only [hclean, htake, hdrop]
    rw [if_neg hbr]
    rw [beforeChar_of_none hhash, afterChar_of_none hhash]
  exact urlparseE_of_split hsp hsemi2

theorem removeUnsafe_no_bad (s : Str) :
    hasChar '\t' (removeUnsafe s) = false ∧ hasChar '\r' (removeUnsafe s) = false ∧
      hasChar '\n' (removeUnsafe s) = false := by
  refine ⟨?_, ?_, ?_⟩ <;>
  · rw [hasChar_false_iff, removeUnsafe]
    intro hm
    have := (List.mem_filter.mp hm).2
    simp at this

theorem normalize_abs_idem {P S : Str}
    (hsplit : ∀ t, urlsplitE [] (P ++ t) = splitAbs S t)
    (hPS : P = S ++ strOf "://")
    (hSlow : lowerStr S = S)
    (hcolon : normalize_url (S ++ [':']) [] = .ok (S ++ [':']))
    (t : Str)
    (hsemi : hasChar ';' t = false)
    (hq : ∀ p, urlparseE [] (P ++ t) = .ok p → p.query = [] ∨ rstripSlash p.query ≠ []) :
    (normalize_url (P ++ t) []).bind (fun s => normalize_url s []) =
      normalize_url (P ++ t) [] := by
  have hbad := removeUnsafe_no_bad t
  have hmsemi : hasChar ';' (removeUnsafe t) = false :=
    hasChar_sublist (List.filter_sublist t) hsemi
  by_cases hbr : (hasChar '[' ((removeUnsafe t).takeWhile (fun c => ¬ netlocDelim c)) = true ∧
        ¬ hasChar ']' ((removeUnsafe t).takeWhile (fun c => ¬ netlocDelim c)) = true) ∨
      (hasChar ']' ((removeUnsafe t).takeWhile (fun c => ¬ netlocDelim c)) = true ∧
        ¬ hasChar '[' ((removeUnsafe t).takeWhile (fun c => ¬ netlocDelim c)) = true)
  · have hperr : urlparseE [] (P ++ t) = .error "Invalid IPv6 URL" := by
      rw [urlparseE]
      show Except.bind (urlsplitE [] (P ++ t)) _ = _
      rw [hsplit, splitAbs]
      simp only []
      rw [if_pos hbr]
      rfl
    rw [normalize_url_nil, hperr]
    rfl
  · -- successful parse of the input
    have hnl : ∀ x ∈ (removeUnsafe t).takeWhile (fun c => ¬ netlocDelim c),
        netlocDelim x = false := by
      intro x hx
      have := List.mem_takeWhile_imp hx
      simpa using this
    have hp : urlparseE [] (P ++ t) =
        .ok ⟨S, (removeUnsafe t).takeWhile (fun c => ¬ netlocDelim c),
          beforeChar '?' (beforeChar '#' ((removeUnsafe t).dropWhile (fun c => ¬ netlocDelim c))), [],
          afterChar '?' (beforeChar '#' ((removeUnsafe t).dropWhile (fun c => ¬ netlocDelim c))),
          afterChar '#' ((removeUnsafe t).dropWhile (fun c => ¬ netlocDelim c))⟩ := by
      refine urlparseE_of_split
        (s := ⟨S, (removeUnsafe t).takeWhile (fun c => ¬ netlocDelim c),
          beforeChar '?' (beforeChar '#' ((removeUnsafe t).dropWhile (fun c => ¬ netlocDelim c))),
          afterChar '?' (beforeChar '#' ((removeUnsafe t).dropWhile (fun c => ¬ netlocDelim c))),
          afterChar '#' ((removeUnsafe t).dropWhile (fun c => ¬ netlocDelim c))⟩) ?_ ?_
      · rw [hsplit, splitAbs]
        rw [if_neg hbr]
      · exact hasChar_sublist
          (((List.takeWhile_sublist _).trans (List.takeWhile_sublist _)).trans
            (List.dropWhile_sublist _)) hmsemi
    -- abbreviations (propositional)
    obtain ⟨pn, hpn⟩ : ∃ pn, (removeUnsafe t).takeWhile (fun c => ¬ netlocDelim c) = pn :=
      ⟨_, rfl⟩
    obtain ⟨r2, hr2⟩ : ∃ r2, (removeUnsafe t).dropWhile (fun c => ¬ netlocDelim c) = r2 :=
      ⟨_, rfl⟩
    rw [hpn, hr2] at hp
    rw [hpn] at hbr hnl
    have hr2sub : r2.Sublist (removeUnsafe t) := hr2 ▸ List.dropWhile_sublist _
    have hpnsub : pn.Sublist (removeUnsafe t) := hpn ▸ List.takeWhile_sublist _
    have hpathsub : (beforeChar '?' (beforeChar '#' r2)).Sublist r2 :=
      (List.takeWhile_sublist _).trans (List.takeWhile_sublist _)
    have hqsub : (afterChar '?' (beforeChar '#' r2)).Sublist r2 :=
      ((List.tail_sublist _).trans (List.dropWhile_sublist _)).trans
        (List.takeWhile_sublist _)
    have hpath_noq : hasChar '?' (beforeChar '?' (beforeChar '#' r2)) = false :=
      hasChar_beforeChar_self '?' _
    have hpath_nohash : hasChar '#' (beforeChar '?' (beforeChar '#' r2)) = false :=
      hasChar_sublist (List.takeWhile_sublist _) (hasChar_beforeChar_self '#' r2)
    have hq_nohash : hasChar '#' (afterChar '?' (beforeChar '#' r2)) = false :=
      hasChar_sublist ((List.tail_sublist _).trans (List.dropWhile_sublist _))
        (hasChar_beforeChar_self '#' r2)
    have hpathshape : beforeChar '?' (beforeChar '#' r2) = [] ∨
        ∃ ps, beforeChar '?' (beforeChar '#' r2) = '/' :: ps := by
      cases hc : r2 with
      | nil => left; rfl
      | cons c cs =>
        have hcd : netlocDelim c = true := by
          have := dropWhile_head_false (hr2.symm ▸ hc)
          simpa using this
        rcases netlocDelim_split hcd with rfl | rfl | rfl
        · right
          rw [beforeChar, beforeChar, List.takeWhile_cons, if_pos (by decide),
            List.takeWhile_cons, if_pos (by decide)]
          exact ⟨_, rfl⟩
        · left
          rw [beforeChar, beforeChar, List.takeWhile_cons, if_pos (by decide),
            List.takeWhile_cons, if_neg (by decide)]
        · left
          rw [beforeChar, beforeChar, List.takeWhile_cons, if_neg (by decide)]
          rfl
    obtain ⟨pa, hpa⟩ : ∃ x, beforeChar '?' (beforeChar '#' r2) = x := ⟨_, rfl⟩
    obtain ⟨q0, hq0e⟩ : ∃ x, afterChar '?' (beforeChar '#' r2) = x := ⟨_, rfl⟩
    obtain ⟨fr0, hfr0⟩ : ∃ x, afterChar '#' r2 = x := ⟨_, rfl⟩
    rw [hpa, hq0e, hfr0] at hp
    rw [hpa] at hpathsub hpath_noq hpath_nohash hpathshape
    rw [hq0e] at hqsub hq_nohash
    have hqc : q0 = [] ∨ rstripSlash q0 ≠ [] := by
      have h := hq _ hp
      simpa using h
    have hC : ∀ {x : Str}, x.Sublist (removeUnsafe t) →
        hasChar '\t' x = false ∧ hasChar '\r' x = false ∧
          hasChar '\n' x = false ∧ hasChar ';' x = false := by
      intro x hs
      exact ⟨hasChar_sublist hs hbad.1, hasChar_sublist hs hbad.2.1,
        hasChar_sublist hs hbad.2.2, hasChar_sublist hs hmsemi⟩
    have hCpn := hC hpnsub
    have hCpa := hC (hpathsub.trans hr2sub)
    have hCq := hC (hqsub.trans hr2sub)
    have hbrL : ¬ ((hasChar '[' (lowerStr pn) = true ∧ ¬ hasChar ']' (lowerStr pn) = true) ∨
        (hasChar ']' (lowerStr pn) = true ∧ ¬ hasChar '[' (lowerStr pn) = true)) := by
      rw [hasChar_lower_iff (by decide) pn, hasChar_lower_iff (by decide) pn]
      exact hbr
    have hnlL : ∀ x ∈ lowerStr pn, netlocDelim x = false := lower_netlocDelim_all hnl
    by_cases hq0 : q0 = []
    · by_cases hrp : rstripSlash pa = []
      · by_cases hpn0 : pn = []
        · -- case B2b : everything after the scheme strips away
          have hshape : reassemble ⟨S, pn, pa, [], q0, fr0⟩ =
              ((S ++ [':']) ++ ['/', '/']) ++ pa := by
            rw [reassemble]
            simp only []
            rw [if_neg (by simp [hq0])]
            rw [hpn0]
            have hcolonsl : strOf "://" = [':'] ++ ['/', '/'] := rfl
            rw [hcolonsl]
            simp [List.append_assoc]
          have hn : lowerStr (rstripSlash (reassemble ⟨S, pn, pa, [], q0, fr0⟩)) =
              S ++ [':'] := by
            rw [hshape, rstripSlash_append_of_nil hrp,
              rstripSlash_append_of_nil (by decide : rstripSlash ['/', '/'] = []),
              rstripSlash_append_of_ne (by decide : rstripSlash [':'] ≠ [])]
            rw [(by decide : rstripSlash [':'] = [':'])]
            rw [lowerStr_append, hSlow]
            rw [(by decide : lowerStr [':'] = [':'])]
          have hR : normalize_url (P ++ t) [] = .ok (S ++ [':']) := by
            rw [normalize_url_nil, hp]
            simp only [Except.map]
            rw [hn]
          rw [hR]
          show normalize_url (S ++ [':']) [] = _
          exact hcolon
        · -- case B2a : netloc survives, path strips away entirely
          have hpn_noslash : ∀ x ∈ pn, x ≠ '/' := by
            intro x hx he
            have := hnl x hx
            rw [he] at this
            simp [netlocDelim] at this
          have hlpn_noslash : ∀ x ∈ lowerStr pn, x ≠ '/' := by
            intro x hx he
            rw [lowerStr, List.mem_map] at hx
            obtain ⟨y, hy, rfl⟩ := hx
            rw [toLower_eq_low (by decide) y] at he
            exact hpn_noslash y hy he
          have hshape : reassemble ⟨S, pn, pa, [], q0, fr0⟩ =
              ((S ++ strOf "://") ++ pn) ++ pa := by
            rw [reassemble]
            simp only []
            rw [if_neg (by simp [hq0])]
          have hn : lowerStr (rstripSlash (reassemble ⟨S, pn, pa, [], q0, fr0⟩)) =
              P ++ (lowerStr pn ++ []) := by
            rw [hshape, rstripSlash_append_of_nil hrp,
              rstripSlash_append_of_ne (by rw [rstripSlash_of_no_slash hpn_noslash]; exact hpn0),
              rstripSlash_of_no_slash hpn_noslash]
            rw [lowerStr_append, lowerStr_append, hSlow, lowerStr_colon_slash_slash, hPS]
            simp [List.append_assoc]
          have hR : normalize_url (P ++ t) [] = .ok (P ++ (lowerStr pn ++ [])) := by
            rw [normalize_url_nil, hp]
            simp only [Except.map]
            rw [hn]
          rw [hR]
          show normalize_url (P ++ (lowerStr pn ++ [])) [] = _
          have h2 := @urlparseE_abs_of _ _ hsplit (lowerStr pn) []
            (by rw [List.append_nil]
                exact removeUnsafe_eq_self (hasChar_lower_low (by decide) hCpn.1)
                  (hasChar_lower_low (by decide) hCpn.2.1)
                  (hasChar_lower_low (by decide) hCpn.2.2.1))
            hnlL (Or.inl rfl) hbrL (by rfl) (by rfl)
          refine normalize_fix_of_parse h2 ?_
          have hsh2 : reassemble ⟨S, lowerStr pn, beforeChar '?' [], [],
              afterChar '?' [], []⟩ = ((S ++ strOf "://") ++ lowerStr pn) ++ [] := by
            rw [reassemble]
            simp only []
            rw [if_neg (by simp [afterChar])]
            show S ++ strOf "://" ++ lowerStr pn ++ beforeChar '?' [] = _
            simp [beforeChar, List.append_assoc]
          rw [hsh2, List.append_nil,
            rstripSlash_append_of_ne
              (by rw [rstripSlash_of_no_slash hlpn_noslash]; exact lowerStr_ne_nil hpn0),
            rstripSlash_of_no_slash hlpn_noslash]
          rw [lowerStr_append, lowerStr_append, hSlow, lowerStr_colon_slash_slash,
            lowerStr_idem, hPS]
          simp [List.append_assoc]
      · -- case B1 : empty query, path keeps a nonempty stripped part
        obtain ⟨ps, hpacons⟩ : ∃ ps, pa = '/' :: ps := by
          rcases hpathshape with h | h
          · rw [h] at hrp
            exact absurd rfl hrp
          · exact h
        obtain ⟨ys, hrpc⟩ : ∃ ys, rstripSlash pa = '/' :: ys := by
          rw [hpacons] at hrp ⊢
          exact rstripSlash_head hrp
        have hnoq_lrp : hasChar '?' (lowerStr (rstripSlash pa)) = false :=
          hasChar_lower_low (by decide) (hasChar_rstrip hpath_noq)
        have hshape : reassemble ⟨S, pn, pa, [], q0, fr0⟩ =
            (S ++ (strOf "://" ++ pn)) ++ pa := by
          rw [reassemble]
          simp only []
          rw [if_neg (by simp [hq0])]
          simp [List.append_assoc]
        have hn : lowerStr (rstripSlash (reassemble ⟨S, pn, pa, [], q0, fr0⟩)) =
            P ++ (lowerStr pn ++ lowerStr (rstripSlash pa)) := by
          rw [hshape, rstripSlash_append_of_ne hrp]
          rw [lowerStr_append, lowerStr_append, lowerStr_append, hSlow,
            lowerStr_colon_slash_slash, hPS]
          simp [List.append_assoc]
        have hR : normalize_url (P ++ t) [] =
            .ok (P ++ (lowerStr pn ++ lowerStr (rstripSlash pa))) := by
          rw [normalize_url_nil, hp]
          simp only [Except.map]
          rw [hn]
        rw [hR]
        show normalize_url (P ++ (lowerStr pn ++ lowerStr (rstripSlash pa))) [] = _
        have h2 := @urlparseE_abs_of _ _ hsplit (lowerStr pn)
          (lowerStr (rstripSlash pa)) ?clean ?nl ?stop ?br ?hash ?semi
        case nl => exact hnlL
        case br => exact hbrL
        case clean =>
          refine removeUnsafe_eq_self ?_ ?_ ?_ <;>
          · refine hasChar_append_false (hasChar_lower_low (by decide) ?_)
              (hasChar_lower_low (by decide) (hasChar_rstrip ?_))
            all_goals first
            | exact hCpn.1
            | exact hCpn.2.1
            | exact hCpn.2.2.1
            | exact hCpa.1
            | exact hCpa.2.1
            | exact hCpa.2.2.1
        case stop =>
          refine Or.inr ⟨'/', lowerStr ys, ?_, by decide⟩
          rw [hrpc]
          simp [lowerStr]
        case hash =>
          exact hasChar_lower_low (by decide) (hasChar_rstrip hpath_nohash)
        case semi =>
          rw [beforeChar_of_none hnoq_lrp]
          exact hasChar_lower_low (by decide) (hasChar_rstrip hCpa.2.2.2)
        rw [beforeChar_of_none hnoq_lrp, afterChar_of_none hnoq_lrp] at h2
        refine normalize_fix_of_parse h2 ?_
        have hsh2 : reassemble ⟨S, lowerStr pn, lowerStr (rstripSlash pa), [], [], []⟩ =
            (S ++ (strOf "://" ++ lowerStr pn)) ++ lowerStr (rstripSlash pa) := by
          rw [reassemble]
          simp only []
          rw [if_neg (by simp)]
          simp [List.append_assoc]
        rw [hsh2,
          rstripSlash_append_of_ne
            (by rw [rstripSlash_lower_fix]; exact lowerStr_ne_nil hrp),
          rstripSlash_lower_fix]
        simp only [lowerStr_append, lowerStr_idem, hSlow, lowerStr_colon_slash_slash, hPS]
        simp [List.append_assoc]
    · -- case A : nonempty query; stripping stays inside the query
      have hrq : rstripSlash q0 ≠ [] := by
        rcases hqc with h | h
        · exact absurd h hq0
        · exact h
      have hql : lowerStr ['?'] = ['?'] := by decide
      have hshape : reassemble ⟨S, pn, pa, [], q0, fr0⟩ =
          (S ++ (strOf "://" ++ (pn ++ (pa ++ ['?'])))) ++ q0 := by
        rw [reassemble]
        simp only []
        rw [if_pos hq0]
        simp [List.append_assoc]
      have hn : lowerStr (rstripSlash (reassemble ⟨S, pn, pa, [], q0, fr0⟩)) =
          P ++ (lowerStr pn ++ (lowerStr pa ++ '?' :: lowerStr (rstripSlash q0))) := by
        rw [hshape, rstripSlash_append_of_ne hrq]
        simp only [lowerStr_append, hSlow, lowerStr_colon_slash_slash, hql, hPS]
        simp [List.append_assoc]
      have hR : normalize_url (P ++ t) [] =
          .ok (P ++ (lowerStr pn ++ (lowerStr pa ++ '?' :: lowerStr (rstripSlash q0)))) := by
        rw [normalize_url_nil, hp]
        simp only [Except.map]
        rw [hn]
      rw [hR]
      show normalize_url
          (P ++ (lowerStr pn ++ (lowerStr pa ++ '?' :: lowerStr (rstripSlash q0)))) [] = _
      have hnoq_lpa : hasChar '?' (lowerStr pa) = false :=
        hasChar_lower_low (by decide) hpath_noq
      have h2 := @urlparseE_abs_of _ _ hsplit (lowerStr pn)
        (lowerStr pa ++ '?' :: lowerStr (rstripSlash q0)) ?clean ?nl ?stop ?br ?hash ?semi
      case nl => exact hnlL
      case br => exact hbrL
      case clean =>
        apply removeUnsafe_eq_self <;>
        · refine hasChar_append_false (hasChar_lower_low (by decide) ?_)
            (hasChar_append_false (hasChar_lower_low (by decide) ?_)
              (hasChar_cons_false (by decide)
                (hasChar_lower_low (by decide) (hasChar_rstrip ?_))))
          all_goals first
          | exact hCpn.1
          | exact hCpn.2.1
          | exact hCpn.2.2.1
          | exact hCpa.1
          | exact hCpa.2.1
          | exact hCpa.2.2.1
          | exact hCq.1
          | exact hCq.2.1
          | exact hCq.2.2.1
      case stop =>
        rcases hpathshape with h | ⟨ps, h⟩
        · rw [h]
          exact Or.inr ⟨'?', lowerStr (rstripSlash q0), by simp [lowerStr], by decide⟩
        · rw [h]
          refine Or.inr ⟨'/', lowerStr ps ++ '?' :: lowerStr (rstripSlash q0), ?_, by decide⟩
          simp [lowerStr]
      case hash =>
        refine hasChar_append_false (hasChar_lower_low (by decide) hpath_nohash)
          (hasChar_cons_false (by decide)
            (hasChar_lower_low (by decide) (hasChar_rstrip hq_nohash)))
      case semi =>
        rw [beforeChar_append_of_none hnoq_lpa]
        exact hasChar_lower_low (by decide) hCpa.2.2.2
      rw [beforeChar_append_of_none hnoq_lpa, afterChar_append_of_none hnoq_lpa] at h2
      refine normalize_fix_of_parse h2 ?_
      have hsh2 : reassemble ⟨S, lowerStr pn, lowerStr pa, [],
          lowerStr (rstripSlash q0), []⟩ =
          (S ++ (strOf "://" ++ (lowerStr pn ++ (lowerStr pa ++ ['?'])))) ++
            lowerStr (rstripSlash q0) := by
        rw [reassemble]
        simp only []
        rw [if_pos (lowerStr_ne_nil hrq)]
        simp [List.append_assoc]
      rw [hsh2, rstripSlash_append_of_ne (by rw [rstripSlash_lower_fix]; exact lowerStr_ne_nil hrq)]
      rw [rstripSlash_lower_fix]
      simp only [lowerStr_append, hSlow, lowerStr_colon_slash_slash, hql, lowerStr_idem, hPS]
      simp [List.append_assoc]

/-- C9 counterexample: at the absolute URL `http://a?/` (whose query is a
lone slash) and empty base, `normalize_url` yields `http://a?` (the
`rstrip` ate the query), renormalizing yields `http://a`, so
`normalize(normalize(url, ''), '') ≠ normalize(url, base)` at `base = ''`:
idempotence fails as stated. -/
theorem normalize_url_not_idempotent :
    isHttpAbsolute (strOf "http://a?/") = true ∧
    normalize_url (strOf "http://a?/") [] = .ok (strOf "http://a?") ∧
    (normalize_url (strOf "http://a?/") []).bind (fun s => normalize_url s []) =
      .ok (strOf "http://a") ∧
    (normalize_url (strOf "http://a?/") []).bind (fun s => normalize_url s []) ≠
      normalize_url (strOf "http://a?/") [] := by
  exact ⟨by decide, by decide, by decide, by decide⟩

/-- C9 amended: for an absolute URL (starting with `http://` or
`https://`), the base is ignored, and renormalization is idempotent
provided the URL contains no `;` (whose params-splitting can resurface
after stripping) and its parsed query is not a nonempty run of slashes
(which `rstrip('/')` would truncate): then
`normalize(normalize(url, ''), '') = normalize(url, base)`. -/
theorem normalize_url_idempotent (url base : Str)
    (habs : isHttpAbsolute url = true)
    (hsemi : hasChar ';' url = false)
    (hq : ∀ p, urlparseE [] url = .ok p → p.query = [] ∨ rstripSlash p.query ≠ []) :
    (normalize_url url []).bind (fun s => normalize_url s []) =
      normalize_url url base := by
  have hbase : normalize_url url base = normalize_url url [] := by
    rw [normalize_url, normalize_url]
    show Except.bind (resolveUrl url base) _ = Except.bind (resolveUrl url []) _
    rw [resolveUrl_nil, resolveUrl, if_pos habs]
  rw [hbase]
  rw [isHttpAbsolute, Bool.or_eq_true] at habs
  rcases habs with h | h
  · obtain ⟨t, rfl⟩ : ∃ t, url = strOf "http://" ++ t := by
      obtain ⟨t, ht⟩ := (List.isPrefixOf_iff_prefix.mp h)
      exact ⟨t, ht.symm⟩
    exact normalize_abs_idem urlsplitE_http rfl (by decide) (by decide) t
      (hasChar_sublist (List.IsSuffix.sublist ⟨_, rfl⟩) hsemi) hq
  · obtain ⟨t, rfl⟩ : ∃ t, url = strOf "https://" ++ t := by
      obtain ⟨t, ht⟩ := (List.isPrefixOf_iff_prefix.mp h)
      exact ⟨t, ht.symm⟩
    exact normalize_abs_idem urlsplitE_https rfl (by decide) (by decide) t
      (hasChar_sublist (List.IsSuffix.sublist ⟨_, rfl⟩) hsemi) hq

theorem normalize_url_idempotent_witness :
    (normalize_url (strOf "http://A.com/X//") []).bind (fun s => normalize_url s []) =
      normalize_url (strOf "http://A.com/X//") (strOf "http://base.org/q") :=
  normalize_url_idempotent (strOf "http://A.com/X//") (strOf "http://base.org/q")
    (by decide) (by decide)
    (fun p hp => by
      have hv : urlparseE [] (strOf "http://A.com/X//") =
          .ok ⟨strOf "http", strOf "A.com", strOf "/X//", [], [], []⟩ := by decide
      rw [hv] at hp
      injection hp with h
      rw [← h]
      exact Or.inl rfl)

/-! ## Lemmas: marker search and link collection over the descendant list -/
mutual
theorem findMarkerNode_eq_none (marker : Str) (c : Node)
    (h : ∀ n ∈ descN c, isMarkerElt marker n = false) :
    findMarkerNode marker c = none := by
  match c with
  | .txt s => rfl
  | .elt nm ats cs =>
    rw [findMarkerNode]
    rw [if_neg]
    · exact findMarkerIn_eq_none marker cs 0
        (fun n hn => h n (by rw [descN]; exact List.mem_cons_of_mem _ hn))
    · have := h (.elt nm ats cs) (by rw [descN]; exact List.mem_cons_self _ _)
      simp [this]
theorem findMarkerIn_eq_none (marker : Str) (cs : List Node) (i : Nat)
    (h : ∀ n ∈ descL cs, isMarkerElt marker n = false) :
    findMarkerIn marker cs i = none := by
  match cs with
  | [] => rfl
  | c :: rest =>
    rw [findMarkerIn]
    rw [findMarkerNode_eq_none marker c
      (fun n hn => h n (by rw [descL]; exact List.mem_append_left _ hn))]
    exact findMarkerIn_eq_none marker rest (i + 1)
      (fun n hn => h n (by rw [descL]; exact List.mem_append_right _ hn))
end

mutual
theorem linksOf_eq_filterMap (n : Node) :
    linksOf n = (descN n).filterMap anchorOf := by
  match n with
  | .txt s => rfl
  | .elt nm ats cs =>
    have hrec := linksIn_eq_filterMap cs
    rw [linksOf, descN, List.filterMap_cons, hrec]
    by_cases ha : nm = strOf "a"
    · rw [if_pos ha]
      cases hg : attrGet ats (strOf "href") with
      | none =>
        have han : anchorOf (.elt nm ats cs) = none := by
          rw [anchorOf, if_pos ha, hg]; rfl
        rw [han]
        simp
      | some v =>
        have han : anchorOf (.elt nm ats cs) =
            some ⟨v, getTextStripN (.elt nm ats cs), renderN (.elt nm ats cs)⟩ := by
          rw [anchorOf, if_pos ha, hg]; rfl
        rw [han]
        simp
    · rw [if_neg ha]
      have han : anchorOf (.elt nm ats cs) = none := by
        rw [anchorOf, if_neg ha]
      rw [han]
      simp
theorem linksIn_eq_filterMap (cs : List Node) :
    linksIn cs = (descL cs).filterMap anchorOf := by
  match cs with
  | [] => rfl
  | c :: rest =>
    rw [linksIn, descL, List.filterMap_append, linksOf_eq_filterMap c,
      linksIn_eq_filterMap rest]
end

/-- Behaviour of the extractor on a truthy document. -/
theorem extract_some (root : Node) (marker : Str)
    (ht : isTruthy (some root) = true) :
    extract_content_after_marker (some root) marker =
      match findMarkerIn marker (childrenOf root) 0 with
      | none => (some (bodyOr root), some root)
      | some p =>
        let cp := walkUp root p p.length
        let lvl1 := followingElemSiblings root cp
        if !lvl1.isEmpty then
          (some (.elt (strOf "div") [] lvl1),
           some (modifyAt (dropFollowingElems (cp.getLast?.getD 0)) root cp.dropLast))
        else if !cp.isEmpty then
          let pp := cp.dropLast
          let lvl2 := followingElemSiblings root pp
          (some (.elt (strOf "div") [] lvl2),
           if pp.isEmpty then some root
           else some (modifyAt (dropFollowingElems (pp.getLast?.getD 0)) root pp.dropLast))
        else (some (.elt (strOf "div") [] []), some root) := by
  rw [extract_content_after_marker, if_neg (by simp [ht])]

/-- C2: the claim says building the synthetic container copies the
collected elements and leaves the original parsed tree unchanged
(`frame_effect`; the source's own comment at line 69 says "Deep copy to
avoid modifying original").  In fact `container.append(elem)` MOVES each
collected element: on `sampleDoc` the extractor returns the container
`<div><p>x</p></div>`, and the post-state document `sampleDocAfter` has
lost two nodes — the original tree is mutated. -/
theorem extract_mutates_document :
    (extract_content_after_marker (some sampleDoc) (strOf "Course Syllabus")).1 =
      some (.elt (strOf "div") [] [.elt (strOf "p") [] [.txt (strOf "x")]]) ∧
    (extract_content_after_marker (some sampleDoc) (strOf "Course Syllabus")).2 =
      some sampleDocAfter ∧
    countNode sampleDocAfter ≠ countNode sampleDoc :=
  ⟨rfl, rfl, by decide⟩

/-- A parsed document's root is a Tag (`BeautifulSoup` subclasses
`Tag`), and Tags are unconditionally truthy. -/
theorem isTruthy_of_elt {root : Node} (h : isElt root = true) :
    isTruthy (some root) = true := by
  cases root with
  | txt s => exact absurd h (by rw [isElt]; simp)
  | elt nm ats cs => rfl

/-- C7: for every parsed document (root element node), (i) when the
marker text occurs in no candidate element the extractor returns the
whole body subtree (the whole document when there is no body), without
touching the document, and (ii) the extractor always returns some
region, possibly empty — never an absent one. -/
theorem extract_content_fallback :
    (∀ (root : Node) (marker : Str), isElt root = true →
      (∀ n ∈ descL (childrenOf root), isMarkerElt marker n = false) →
      extract_content_after_marker (some root) marker = (some (bodyOr root), some root)) ∧
    (∀ (root : Node) (marker : Str), isElt root = true →
      ((extract_content_after_marker (some root) marker).1).isSome = true) := by
  constructor
  · intro root marker helt hnm
    have ht := isTruthy_of_elt helt
    rw [extract_some root marker ht,
      findMarkerIn_eq_none marker (childrenOf root) 0 hnm]
  · intro root marker helt
    have ht := isTruthy_of_elt helt
    rw [extract_some root marker ht]
    cases hf : findMarkerIn marker (childrenOf root) 0 with
    | none => rfl
    | some p =>
      dsimp only
      split
      · rfl
      · split <;> rfl

/-- Witness for C7's theorem at `fallbackDoc`. -/
theorem extract_content_fallback_witness :
    extract_content_after_marker (some fallbackDoc) (strOf "syllabus") =
      (some (bodyOr fallbackDoc), some fallbackDoc) ∧
    ((extract_content_after_marker (some fallbackDoc) (strOf "syllabus")).1).isSome = true :=
  ⟨extract_content_fallback.1 fallbackDoc (strOf "syllabus") (by decide) (by decide),
   extract_content_fallback.2 fallbackDoc (strOf "syllabus") (by decide)⟩

/-- C8 counterexample: the claim says anchors whose `href` attribute is
the empty string are skipped.  `find_all('a', href=True)` only requires
the attribute to be PRESENT (its match succeeds whenever the value is
not `None`), so the empty-`href` anchor of `sample8` is returned, with
`url` the empty string. -/
theorem extract_links_includes_empty_href :
    extract_links (some sample8) =
      [⟨[], strOf "X", strOf "<a href=\"\">X</a>"⟩] ∧
    ([] : Str) ∈ (extract_links (some sample8)).map Link.url :=
  ⟨rfl, by decide⟩

/-- C8 amended: `extract_links` returns exactly the anchor descendants
of the region that CARRY an `href` attribute — the empty string
included — in document order, with `url` the raw attribute value,
`text` the stripped concatenated text and `html` the serialization;
anchors without the attribute are skipped silently, and an absent
region yields no links. -/
theorem extract_links_href_presence :
    (∀ e : Node, extract_links (some e) = (descL (childrenOf e)).filterMap anchorOf) ∧
    extract_links none = [] := by
  constructor
  · intro e
    match e with
    | .txt s =>
      rw [extract_links]
      by_cases ht : isTruthy (some (Node.txt s)) = true
      · rw [if_neg (by simp [ht])]
        rfl
      · rw [if_pos (by simpa using ht)]
        rfl
    | .elt nm ats cs =>
      rw [extract_links]
      rw [if_neg (by rw [isTruthy]; simp)]
      exact linksIn_eq_filterMap cs
  · rfl

theorem runv_le (s : Str) : ∀ e, runv s e ≤ e + 1
  | 0 => by rw [runv]; split <;> omega
  | e + 1 => by
    rw [runv]
    split
    · omega
    · have := runv_le s e
      omega

theorem runv_eq_zero {s : Str} {e : Nat}
    (h : isPopular s (s.getD e ' ') = true) : runv s e = 0 := by
  cases e with
  | zero => rw [runv, if_pos h]
  | succ e => rw [runv, if_pos h]

theorem runv_succ_of {s : Str} {e : Nat}
    (h : isPopular s (s.getD e ' ') = false) :
    runv s e = (if e = 0 then 0 else runv s (e - 1)) + 1 := by
  cases e with
  | zero => rw [runv, if_neg (by rw [h]; simp), if_pos rfl]
  | succ e => rw [runv, if_neg (by rw [h]; simp), if_neg (by omega)]; rfl

theorem runv_one_le {s : Str} {e : Nat}
    (h : isPopular s (s.getD e ' ') = false) : 1 ≤ runv s e := by
  rw [runv_succ_of h]; omega

theorem lookupD_cons (a v : Nat) (d : List (Nat × Nat)) (t : Nat) :
    lookupD ((a, v) :: d) t = if a = t then v else lookupD d t := rfl

theorem b2j_mem {b : Str} {c : Char} {j : Nat} (h : j ∈ b2j b c) :
    j < b.length ∧ b.getD j ' ' = c ∧ isPopular b c = false := by
  rw [b2j] at h
  split at h
  · simp at h
  · rename_i hp
    rw [List.mem_filter, List.mem_range] at h
    obtain ⟨hj, hd⟩ := h
    have hd' : b.getD j c = c ∧ j < b.length := of_decide_eq_true hd
    refine ⟨hj, ?_, by simpa using hp⟩
    have h1 : b.getD j c = c := hd'.1
    rw [List.getD_eq_getElem?_getD, List.getElem?_eq_getElem hj, Option.getD_some] at h1
    rw [List.getD_eq_getElem?_getD, List.getElem?_eq_getElem hj, Option.getD_some]
    exact h1

theorem b2j_self {b : Str} {c : Char} {i : Nat} (hi : i < b.length)
    (hc : c = b.getD i ' ') (hp : isPopular b c = false) : i ∈ b2j b c := by
  rw [b2j, if_neg (by simp [hp])]
  rw [List.mem_filter, List.mem_range]
  refine ⟨hi, decide_eq_true ⟨?_, hi⟩⟩
  rw [List.getD_eq_getElem?_getD, List.getElem?_eq_getElem hi, Option.getD_some]
  rw [List.getD_eq_getElem?_getD, List.getElem?_eq_getElem hi, Option.getD_some] at hc
  exact hc.symm

theorem b2j_sorted (b : Str) (c : Char) : (b2j b c).Pairwise (· < ·) := by
  rw [b2j]
  split
  · exact List.Pairwise.nil
  · exact (List.pairwise_lt_range b.length).filter _

theorem jloop_diag (s : Str) (n : Nat) (hn : n = s.length) (i : Nat) (hin : i < n)
    (c : Char) (hc : c = s.getD i ' ') (j2old : List (Nat × Nat))
    (hcol : ∀ t, lookupD j2old t ≤ runv s t)
    (hrow : ∀ t, lookupD j2old t ≤ (if i = 0 then 0 else runv s (i - 1)))
    (hdg : i = 0 ∨ lookupD j2old (i - 1) = runv s (i - 1)) :
    ∀ (js : List Nat) (jnew : List (Nat × Nat)) (best : Blk),
    (∀ j ∈ js, j ∈ b2j s c) →
    js.Pairwise (· < ·) →
    (∀ t, lookupD jnew t ≤ runv s t) →
    (∀ t, lookupD jnew t ≤ runv s i) →
    best.i = best.j →
    best.i + best.k ≤ n →
    (∀ e, e < i → runv s e ≤ best.k) →
    (i ∈ js ∨ runv s i ≤ best.k) →
    (i ∈ js → lookupD jnew i = 0) →
    (i ∉ js → lookupD jnew i = runv s i) →
    (∀ t, lookupD (jloop 0 n i j2old js jnew best).1 t ≤ runv s t) ∧
    (∀ t, lookupD (jloop 0 n i j2old js jnew best).1 t ≤ runv s i) ∧
    lookupD (jloop 0 n i j2old js jnew best).1 i = runv s i ∧
    (jloop 0 n i j2old js jnew best).2.i = (jloop 0 n i j2old js jnew best).2.j ∧
    (jloop 0 n i j2old js jnew best).2.i + (jloop 0 n i j2old js jnew best).2.k ≤ n ∧
    best.k ≤ (jloop 0 n i j2old js jnew best).2.k ∧
    (∀ e, e ≤ i → runv s e ≤ (jloop 0 n i j2old js jnew best).2.k) := by
  have hpi : isPopular s (s.getD i ' ') = false → 1 ≤ runv s i :=
    fun h => runv_one_le h
  intro js
  induction js with
  | nil =>
    intro jnew best _ _ h3 h4 h5 h6 h7 h8 _ h10
    refine ⟨h3, h4, h10 (by simp), h5, h6, le_refl _, ?_⟩
    intro e he
    rcases Nat.lt_or_ge e i with h | h
    · exact h7 e h
    · have he' : e = i := by omega
      subst he'
      rcases h8 with h8 | h8
      · simp at h8
      · exact h8
  | cons j js ih =>
    intro jnew best hjs hsort h3 h4 h5 h6 h7 h8 h9 h10
    obtain ⟨hjn, hjc, hpop⟩ := b2j_mem (hjs j (List.mem_cons_self j js))
    rw [← hn] at hjn
    obtain ⟨hlt, hsort'⟩ := List.pairwise_cons.mp hsort
    have hpopi : isPopular s (s.getD i ' ') = false := by rw [← hc]; exact hpop
    have hpopj : isPopular s (s.getD j ' ') = false := by rw [hjc]; exact hpop
    rw [jloop, if_neg (Nat.not_lt_zero j), if_neg (by omega : ¬ n ≤ j)]
    dsimp only
    have hk_col : (if j = 0 then 0 else lookupD j2old (j - 1)) + 1 ≤ runv s j := by
      rw [runv_succ_of hpopj]
      by_cases hj0 : j = 0
      · simp [hj0]
      · rw [if_neg hj0, if_neg hj0]
        have := hcol (j - 1)
        omega
    have hk_row : (if j = 0 then 0 else lookupD j2old (j - 1)) + 1 ≤ runv s i := by
      rw [runv_succ_of hpopi]
      by_cases hj0 : j = 0
      · simp [hj0]
      · rw [if_neg hj0]
        have := hrow (j - 1)
        omega
    have hknew_col : ∀ t,
        lookupD ((j, (if j = 0 then 0 else lookupD j2old (j - 1)) + 1) :: jnew) t ≤ runv s t := by
      intro t
      rw [lookupD_cons]
      by_cases hjt : j = t
      · rw [if_pos hjt, ← hjt]; exact hk_col
      · rw [if_neg hjt]; exact h3 t
    have hknew_row : ∀ t,
        lookupD ((j, (if j = 0 then 0 else lookupD j2old (j - 1)) + 1) :: jnew) t ≤ runv s i := by
      intro t
      rw [lookupD_cons]
      by_cases hjt : j = t
      · rw [if_pos hjt]; exact hk_row
      · rw [if_neg hjt]; exact h4 t
    rcases Nat.lt_trichotomy j i with hji | hji | hji
    · -- j below the diagonal: the chain value is at most runv j ≤ best.k
      have hnofire : ¬ (best.k < (if j = 0 then 0 else lookupD j2old (j - 1)) + 1) := by
        have := h7 j hji
        omega
      rw [if_neg hnofire]
      have hine : i ≠ j := by omega
      refine ih _ _ (fun x hx => hjs x (List.mem_cons_of_mem _ hx)) hsort'
        hknew_col hknew_row h5 h6 h7 ?_ ?_ ?_
      · rcases h8 with h8 | h8
        · rcases List.mem_cons.mp h8 with h | h
          · omega
          · exact Or.inl h
        · exact Or.inr h8
      · intro hi
        rw [lookupD_cons, if_neg (fun h => hine h.symm)]
        exact h9 (List.mem_cons_of_mem _ hi)
      · intro hi
        rw [lookupD_cons, if_neg (fun h => hine h.symm)]
        refine h10 ?_
        intro hmem
        rcases List.mem_cons.mp hmem with h | h
        · exact hine h
        · exact hi h
    · -- the diagonal element: the chain value is exactly runv i
      subst hji
      have hkq : (if j = 0 then 0 else lookupD j2old (j - 1)) + 1 = runv s j := by
        rw [runv_succ_of hpopj]
        rcases hdg with hdg | hdg
        · rw [if_pos hdg, if_pos hdg]
        · by_cases hj0 : j = 0
          · rw [if_pos hj0, if_pos hj0]
          · rw [if_neg hj0, if_neg hj0, hdg]
      have hnotmem : j ∉ js := fun h => absurd (hlt j h) (by omega)
      have hkle : runv s j ≤ j + 1 := runv_le s j
      by_cases hfire : best.k < (if j = 0 then 0 else lookupD j2old (j - 1)) + 1
      · rw [if_pos hfire]
        have hres := ih ((j, (if j = 0 then 0 else lookupD j2old (j - 1)) + 1) :: jnew)
          ⟨j + 1 - ((if j = 0 then 0 else lookupD j2old (j - 1)) + 1),
           j + 1 - ((if j = 0 then 0 else lookupD j2old (j - 1)) + 1),
           (if j = 0 then 0 else lookupD j2old (j - 1)) + 1⟩
          (fun x hx => hjs x (List.mem_cons_of_mem _ hx)) hsort'
          hknew_col hknew_row rfl (by simp only; omega)
          (fun e he => by simp only; have := h7 e he; omega)
          (Or.inr (by simp only; omega))
          (fun hi => absurd hi hnotmem)
          (fun _ => by rw [lookupD_cons, if_pos rfl, hkq])
        refine ⟨hres.1, hres.2.1, hres.2.2.1, hres.2.2.2.1, hres.2.2.2.2.1, ?_, hres.2.2.2.2.2.2⟩
        have := hres.2.2.2.2.2.1
        simp only at this
        omega
      · rw [if_neg hfire]
        refine ih _ _ (fun x hx => hjs x (List.mem_cons_of_mem _ hx)) hsort'
          hknew_col hknew_row h5 h6 h7 (Or.inr (by omega)) (fun hi => absurd hi hnotmem)
          (fun _ => by rw [lookupD_cons, if_pos rfl, hkq])
    · -- j above the diagonal: the row bound caps the chain at runv i ≤ best.k
      have hnotmem : i ∉ j :: js := by
        intro h
        rcases List.mem_cons.mp h with h | h
        · omega
        · exact absurd (hlt i h) (by omega)
      have hbk : runv s i ≤ best.k := by
        rcases h8 with h8 | h8
        · exact absurd h8 hnotmem
        · exact h8
      have hnofire : ¬ (best.k < (if j = 0 then 0 else lookupD j2old (j - 1)) + 1) := by
        omega
      rw [if_neg hnofire]
      have hine : i ≠ j := by omega
      refine ih _ _ (fun x hx => hjs x (List.mem_cons_of_mem _ hx)) hsort'
        hknew_col hknew_row h5 h6 h7 (Or.inr hbk) ?_ ?_
      · intro hi
        exact absurd (List.mem_cons_of_mem _ hi) hnotmem
      · intro _
        rw [lookupD_cons, if_neg (fun h => hine h.symm)]
        exact h10 (fun h => hnotmem h)

theorem iloop_diag (s : Str) (n : Nat) (hn : n = s.length) :
    ∀ (m i : Nat) (j2len : List (Nat × Nat)) (best : Blk),
    i + m = n →
    (∀ t, lookupD j2len t ≤ runv s t) →
    (∀ t, lookupD j2len t ≤ (if i = 0 then 0 else runv s (i - 1))) →
    (i = 0 ∨ lookupD j2len (i - 1) = runv s (i - 1)) →
    best.i = best.j →
    best.i + best.k ≤ n →
    (∀ e, e < i → runv s e ≤ best.k) →
    (iloop s s 0 n (List.range' i m) j2len best).i =
      (iloop s s 0 n (List.range' i m) j2len best).j ∧
    (iloop s s 0 n (List.range' i m) j2len best).i +
      (iloop s s 0 n (List.range' i m) j2len best).k ≤ n := by
  intro m
  induction m with
  | zero =>
    intro i j2len best _ _ _ _ h5 h6 _
    exact ⟨h5, h6⟩
  | succ m ih =>
    intro i j2len best him hcol hrow hdg h5 h6 h7
    have hin : i < n := by omega
    have hrng : List.range' i (m + 1) = i :: List.range' (i + 1) m := rfl
    rw [hrng, iloop]
    have hres := jloop_diag s n hn i hin (s.getD i ' ') rfl j2len hcol hrow hdg
      (b2j s (s.getD i ' ')) [] best
      (fun _ h => h) (b2j_sorted s (s.getD i ' '))
      (fun t => Nat.zero_le _) (fun t => Nat.zero_le _) h5 h6 h7
      ?_ (fun _ => rfl) ?_
    · refine ih (i + 1) _ _ (by omega) hres.1 ?_ ?_
        hres.2.2.2.1 hres.2.2.2.2.1 ?_
      · intro t
        rw [if_neg (Nat.succ_ne_zero i)]
        simpa using hres.2.1 t
      · refine Or.inr ?_
        simpa using hres.2.2.1
      · intro e he
        exact hres.2.2.2.2.2.2 e (by omega)
    · by_cases hp : isPopular s (s.getD i ' ') = true
      · exact Or.inr (by rw [runv_eq_zero hp]; exact Nat.zero_le _)
      · exact Or.inl (b2j_self (hn ▸ hin) rfl (by simpa using hp))
    · intro hni
      by_cases hp : isPopular s (s.getD i ' ') = true
      · rw [runv_eq_zero hp]; rfl
      · exact absurd (b2j_self (hn ▸ hin) rfl (by simpa using hp)) hni

theorem extFront_diag (s : Str) : ∀ (fuel : Nat) (best : Blk),
    best.i = best.j → best.i ≤ fuel →
    extFront s s 0 0 best fuel = ⟨0, 0, best.i + best.k⟩ := by
  intro fuel
  induction fuel with
  | zero =>
    intro best hd hf
    obtain ⟨bi, bj, bk⟩ := best
    have hd' : bi = bj := hd
    subst hd'
    have h0 : bi = 0 := Nat.le_zero.mp hf
    subst h0
    rw [extFront]
    simp
  | succ fuel ih =>
    intro best hd hf
    obtain ⟨bi, bj, bk⟩ := best
    have hd' : bi = bj := hd
    subst hd'
    rw [extFront]
    by_cases h0 : bi = 0
    · subst h0
      rw [if_neg (by simp)]
      simp
    · rw [if_pos ⟨Nat.pos_of_ne_zero h0, Nat.pos_of_ne_zero h0, rfl⟩]
      have hf' : bi ≤ fuel + 1 := hf
      have h1 : 1 ≤ bi := Nat.pos_of_ne_zero h0
      have hstep : extFront s s 0 0 ⟨bi - 1, bi - 1, bk + 1⟩ fuel =
          ⟨0, 0, (bi - 1) + (bk + 1)⟩ := ih _ rfl (show bi - 1 ≤ fuel by omega)
      rw [hstep]
      have h2 : (bi - 1) + (bk + 1) = bi + bk := by omega
      rw [h2]

theorem extBack_diag (s : Str) (n : Nat) : ∀ (fuel m : Nat),
    m ≤ n → n - m ≤ fuel →
    extBack s s n n ⟨0, 0, m⟩ fuel = ⟨0, 0, n⟩ := by
  intro fuel
  induction fuel with
  | zero =>
    intro m hm hf
    have : m = n := by omega
    rw [extBack, this]
  | succ fuel ih =>
    intro m hm hf
    rw [extBack]
    by_cases hlt : m < n
    · rw [if_pos ⟨by simpa using hlt, by simpa using hlt, rfl⟩]
      exact ih (m + 1) (by omega) (by omega)
    · rw [if_neg (by simp; omega)]
      have : m = n := by omega
      rw [this]

/-- On identical sequences the search of the full rectangle returns the
whole diagonal. -/
theorem flm_self (s : Str) :
    find_longest_match s s 0 s.length 0 s.length = ⟨0, 0, s.length⟩ := by
  rw [find_longest_match]
  have h0 : ∀ t, lookupD [] t ≤ runv s t := fun t => Nat.zero_le _
  have hil := iloop_diag s s.length rfl s.length 0 [] ⟨0, 0, 0⟩
    (by omega) h0 (fun t => by rw [if_pos rfl]; exact Nat.le_refl _) (Or.inl rfl)
    rfl (by simp) (fun e he => by omega)
  simp only [Nat.sub_zero]
  set best := iloop s s 0 s.length (List.range' 0 s.length) [] ⟨0, 0, 0⟩ with hb
  rw [extFront_diag s best.i best hil.1 (Nat.le_refl _)]
  have hsum : best.i + best.k ≤ s.length := hil.2
  rw [extBack_diag s s.length s.length (best.i + best.k) hsum (by omega)]

theorem mbAux_nil (a b : Str) : ∀ (fuel : Nat) (acc : List Blk),
    mbAux a b fuel [] acc = acc := by
  intro fuel acc
  cases fuel <;> rfl

theorem gmb_self (s : Str) (hne : s ≠ []) :
    get_matching_blocks s s = [⟨0, 0, s.length⟩, ⟨s.length, s.length, 0⟩] := by
  obtain ⟨l, hl⟩ : ∃ l, s.length = l + 1 :=
    ⟨s.length - 1, by cases s with | nil => exact absurd rfl hne | cons c t => simp⟩
  rw [get_matching_blocks]
  have h1 : mbAux s s (2 * s.length + 1) [⟨0, s.length, 0, s.length⟩] [] =
      [⟨0, 0, s.length⟩] := by
    rw [mbAux]
    dsimp only
    rw [flm_self]
    dsimp only
    rw [if_neg (show ¬ (s.length = 0) by omega)]
    rw [if_neg (show ¬ ((0:Nat) < 0 ∧ (0:Nat) < 0) by simp)]
    rw [if_neg (show ¬ (0 + s.length < s.length ∧ 0 + s.length < s.length) by omega)]
    exact mbAux_nil s s _ _
  rw [h1]
  have h2 : ([⟨0, 0, s.length⟩] : List Blk).insertionSort blkLe = [⟨0, 0, s.length⟩] := rfl
  rw [h2, mergeAdj, if_pos ⟨rfl, rfl⟩, mergeAdj, if_pos (show 0 + s.length ≠ 0 by omega)]
  simp

/-- C4: similarity is NOT symmetric in general: at a = "abecd",
b = "cdabxe" the ratio is 6/11 one way and 4/11 the other (the greedy
leftmost-longest block choice differs between orders), refuting
`similarity(a,b) == similarity(b,a)` (verified against CPython's
difflib, which returns 0.5454... and 0.3636...). -/
theorem calculate_similarity_not_symmetric :
    calculate_similarity (strOf "abecd") (strOf "cdabxe") = 6 / 11 ∧
    calculate_similarity (strOf "cdabxe") (strOf "abecd") = 4 / 11 ∧
    calculate_similarity (strOf "abecd") (strOf "cdabxe") ≠
      calculate_similarity (strOf "cdabxe") (strOf "abecd") := by
  have h1 : ((get_matching_blocks (strOf "abecd") (strOf "cdabxe")).map Blk.k).sum = 3 := by
    decide
  have h2 : ((get_matching_blocks (strOf "cdabxe") (strOf "abecd")).map Blk.k).sum = 2 := by
    decide
  have e1 : calculate_similarity (strOf "abecd") (strOf "cdabxe") = 6 / 11 := by
    rw [calculate_similarity, h1]
    norm_num [calcRatio, strOf]
  have e2 : calculate_similarity (strOf "cdabxe") (strOf "abecd") = 4 / 11 := by
    rw [calculate_similarity, h2]
    norm_num [calcRatio, strOf]
  refine ⟨e1, e2, ?_⟩
  rw [e1, e2]
  norm_num

/-- C4 amended: reflexivity DOES hold for every text, popular-element
filtering included: the full diagonal is always recovered by the
extension loops, so `calculate_similarity a a = 1.0` for all `a`. -/
theorem calculate_similarity_self (a : Str) : calculate_similarity a a = 1 := by
  by_cases ha : a = []
  · subst ha
    rfl
  · have hlen : a.length ≠ 0 := by
      intro h
      exact ha (List.length_eq_zero.mp h)
    rw [calculate_similarity, gmb_self a ha]
    have hsum : (([⟨0, 0, a.length⟩, ⟨a.length, a.length, 0⟩] : List Blk).map Blk.k).sum =
        a.length := by simp
    rw [hsum, calcRatio, if_pos (show a.length + a.length ≠ 0 by omega)]
    have hq : ((a.length : ℚ)) ≠ 0 := by
      exact_mod_cast hlen
    push_cast
    field_simp
    ring

theorem slice_glue (a : Str) (i e k : Nat) (h : i ≤ e) :
    pySlice a i e ++ (pySlice a e (e + k) ++ a.drop (e + k)) = a.drop i := by
  rw [pySlice, pySlice]
  have h1 : a.drop (e + k) = (a.drop e).drop k := by
    rw [List.drop_drop, Nat.add_comm]
  have h2 : e + k - e = k := by omega
  rw [h1, h2, List.take_append_drop]
  have h3 : a.drop e = (a.drop i).drop (e - i) := by
    rw [List.drop_drop]
    congr 1
    omega
  rw [h3, List.take_append_drop]

theorem opcodes_concat1 (a b : Str) : ∀ (blocks : List Blk) (i j : Nat),
    Tiles a b i j blocks →
    ((opcodesFrom i j blocks).map (fun op => pySlice a op.i1 op.i2)).flatten = a.drop i := by
  intro blocks
  induction blocks with
  | nil =>
    intro i j ht
    cases ht with
    | nil => simp [opcodesFrom, List.drop_length]
  | cons m rest ih =>
    intro i j ht
    cases ht with
    | cons hi hj hrest =>
      rw [opcodesFrom]
      have hIH := ih (m.i + m.k) (m.j + m.k) hrest
      have hgap : ((if i < m.i ∧ j < m.j then [(⟨.replace, i, m.i, j, m.j⟩ : Op)]
          else if i < m.i then [⟨.delete, i, m.i, j, m.j⟩]
          else if j < m.j then [⟨.insert, i, m.i, j, m.j⟩]
          else []).map (fun op => pySlice a op.i1 op.i2)).flatten = pySlice a i m.i := by
        split
        · simp
        · split
          · simp
          · split
            · simp
            · have he : i = m.i := by omega
              simp [he, pySlice]
      have heq : ((if m.k ≠ 0 then [(⟨.equal, m.i, m.i + m.k, m.j, m.j + m.k⟩ : Op)]
          else []).map (fun op => pySlice a op.i1 op.i2)).flatten =
          pySlice a m.i (m.i + m.k) := by
        split
        · simp
        · have hk : m.k = 0 := by omega
          simp [hk, pySlice]
      rw [List.map_append, List.map_append, List.flatten_append, List.flatten_append,
        hgap, heq, hIH, List.append_assoc, slice_glue a i m.i m.k hi]

theorem opcodes_concat2 (a b : Str) : ∀ (blocks : List Blk) (i j : Nat),
    Tiles a b i j blocks →
    ((opcodesFrom i j blocks).map (fun op => pySlice b op.j1 op.j2)).flatten = b.drop j := by
  intro blocks
  induction blocks with
  | nil =>
    intro i j ht
    cases ht with
    | nil => simp [opcodesFrom, List.drop_length]
  | cons m rest ih =>
    intro i j ht
    cases ht with
    | cons hi hj hrest =>
      rw [opcodesFrom]
      have hIH := ih (m.i + m.k) (m.j + m.k) hrest
      have hgap : ((if i < m.i ∧ j < m.j then [(⟨.replace, i, m.i, j, m.j⟩ : Op)]
          else if i < m.i then [⟨.delete, i, m.i, j, m.j⟩]
          else if j < m.j then [⟨.insert, i, m.i, j, m.j⟩]
          else []).map (fun op => pySlice b op.j1 op.j2)).flatten = pySlice b j m.j := by
        split
        · simp
        · split
          · have he : j = m.j := by omega
            simp [he, pySlice]
          · split
            · simp
            · have he : j = m.j := by omega
              simp [he, pySlice]
      have heq : ((if m.k ≠ 0 then [(⟨.equal, m.i, m.i + m.k, m.j, m.j + m.k⟩ : Op)]
          else []).map (fun op => pySlice b op.j1 op.j2)).flatten =
          pySlice b m.j (m.j + m.k) := by
        split
        · simp
        · have hk : m.k = 0 := by omega
          simp [hk, pySlice]
      rw [List.map_append, List.map_append, List.flatten_append, List.flatten_append,
        hgap, heq, hIH, List.append_assoc, slice_glue b j m.j m.k hj]

theorem jloop_bounds (alo ahi blo bhi i : Nat) (hi1 : alo ≤ i) (hi2 : i < ahi)
    (j2old : List (Nat × Nat))
    (hcol : ∀ t, lookupD j2old t ≤ t + 1 - blo)
    (hrow : ∀ t, lookupD j2old t ≤ i - alo) :
    ∀ (js : List Nat) (jnew : List (Nat × Nat)) (best : Blk),
    (∀ t, lookupD jnew t ≤ t + 1 - blo) →
    (∀ t, lookupD jnew t ≤ i + 1 - alo) →
    alo ≤ best.i → best.i + best.k ≤ ahi → blo ≤ best.j → best.j + best.k ≤ bhi →
    (∀ t, lookupD (jloop blo bhi i j2old js jnew best).1 t ≤ t + 1 - blo) ∧
    (∀ t, lookupD (jloop blo bhi i j2old js jnew best).1 t ≤ i + 1 - alo) ∧
    alo ≤ (jloop blo bhi i j2old js jnew best).2.i ∧
    (jloop blo bhi i j2old js jnew best).2.i + (jloop blo bhi i j2old js jnew best).2.k ≤ ahi ∧
    blo ≤ (jloop blo bhi i j2old js jnew best).2.j ∧
    (jloop blo bhi i j2old js jnew best).2.j + (jloop blo bhi i j2old js jnew best).2.k ≤ bhi := by
  intro js
  induction js with
  | nil =>
    intro jnew best h1 h2 h3 h4 h5 h6
    exact ⟨h1, h2, h3, h4, h5, h6⟩
  | cons j js ih =>
    intro jnew best h1 h2 h3 h4 h5 h6
    rw [jloop]
    by_cases hskip : j < blo
    · rw [if_pos hskip]
      exact ih jnew best h1 h2 h3 h4 h5 h6
    · rw [if_neg hskip]
      by_cases hbreak : bhi ≤ j
      · rw [if_pos hbreak]
        exact ⟨h1, h2, h3, h4, h5, h6⟩
      · rw [if_neg hbreak]
        dsimp only
        have hk1 : (if j = 0 then 0 else lookupD j2old (j - 1)) + 1 ≤ j + 1 - blo := by
          by_cases hj0 : j = 0
          · rw [if_pos hj0]
            omega
          · rw [if_neg hj0]
            have := hcol (j - 1)
            omega
        have hk2 : (if j = 0 then 0 else lookupD j2old (j - 1)) + 1 ≤ i + 1 - alo := by
          by_cases hj0 : j = 0
          · rw [if_pos hj0]
            omega
          · rw [if_neg hj0]
            have := hrow (j - 1)
            omega
        have h1' : ∀ t, lookupD ((j, (if j = 0 then 0 else lookupD j2old (j - 1)) + 1) :: jnew) t
            ≤ t + 1 - blo := by
          intro t
          rw [lookupD_cons]
          by_cases hjt : j = t
          · rw [if_pos hjt, ← hjt]; exact hk1
          · rw [if_neg hjt]; exact h1 t
        have h2' : ∀ t, lookupD ((j, (if j = 0 then 0 else lookupD j2old (j - 1)) + 1) :: jnew) t
            ≤ i + 1 - alo := by
          intro t
          rw [lookupD_cons]
          by_cases hjt : j = t
          · rw [if_pos hjt]; exact hk2
          · rw [if_neg hjt]; exact h2 t
        by_cases hfire : best.k < (if j = 0 then 0 else lookupD j2old (j - 1)) + 1
        · rw [if_pos hfire]
          exact ih _ _ h1' h2' (by simp only; omega) (by simp only; omega)
            (by simp only; omega) (by simp only; omega)
        · rw [if_neg hfire]
          exact ih _ _ h1' h2' h3 h4 h5 h6

theorem iloop_bounds (a b : Str) (alo ahi blo bhi : Nat) :
    ∀ (m i : Nat) (j2len : List (Nat × Nat)) (best : Blk),
    alo ≤ i → i + m = ahi →
    (∀ t, lookupD j2len t ≤ t + 1 - blo) →
    (∀ t, lookupD j2len t ≤ i - alo) →
    alo ≤ best.i → best.i + best.k ≤ ahi → blo ≤ best.j → best.j + best.k ≤ bhi →
    alo ≤ (iloop a b blo bhi (List.range' i m) j2len best).i ∧
    (iloop a b blo bhi (List.range' i m) j2len best).i +
      (iloop a b blo bhi (List.range' i m) j2len best).k ≤ ahi ∧
    blo ≤ (iloop a b blo bhi (List.range' i m) j2len best).j ∧
    (iloop a b blo bhi (List.range' i m) j2len best).j +
      (iloop a b blo bhi (List.range' i m) j2len best).k ≤ bhi := by
  intro m
  induction m with
  | zero =>
    intro i j2len best _ _ _ _ h5 h6 h7 h8
    exact ⟨h5, h6, h7, h8⟩
  | succ m ih =>
    intro i j2len best hal him hcol hrow h5 h6 h7 h8
    have hrng : List.range' i (m + 1) = i :: List.range' (i + 1) m := rfl
    rw [hrng, iloop]
    have hres := jloop_bounds alo ahi blo bhi i hal (by omega) j2len hcol hrow
      (b2j b (a.getD i ' ')) [] best
      (fun t => Nat.zero_le _) (fun t => Nat.zero_le _) h5 h6 h7 h8
    exact ih (i + 1) _ _ (by omega) (by omega) hres.1
      (fun t => by have := hres.2.1 t; omega)
      hres.2.2.1 hres.2.2.2.1 hres.2.2.2.2.1 hres.2.2.2.2.2

theorem extFront_bounds (a b : Str) (alo blo : Nat) : ∀ (fuel : Nat) (best : Blk),
    alo ≤ best.i → blo ≤ best.j →
    alo ≤ (extFront a b alo blo best fuel).i ∧
    blo ≤ (extFront a b alo blo best fuel).j ∧
    (extFront a b alo blo best fuel).i + (extFront a b alo blo best fuel).k =
      best.i + best.k ∧
    (extFront a b alo blo best fuel).j + (extFront a b alo blo best fuel).k =
      best.j + best.k := by
  intro fuel
  induction fuel with
  | zero =>
    intro best h1 h2
    exact ⟨h1, h2, rfl, rfl⟩
  | succ fuel ih =>
    intro best h1 h2
    rw [extFront]
    split
    · rename_i hcond
      obtain ⟨hc1, hc2, _⟩ := hcond
      have := ih ⟨best.i - 1, best.j - 1, best.k + 1⟩
        (by simp only; omega) (by simp only; omega)
      refine ⟨this.1, this.2.1, ?_, ?_⟩
      · rw [this.2.2.1]
        simp only
        omega
      · rw [this.2.2.2]
        simp only
        omega
    · exact ⟨h1, h2, rfl, rfl⟩

theorem extBack_bounds (a b : Str) (ahi bhi : Nat) : ∀ (fuel : Nat) (best : Blk),
    best.i + best.k ≤ ahi → best.j + best.k ≤ bhi →
    (extBack a b ahi bhi best fuel).i = best.i ∧
    (extBack a b ahi bhi best fuel).j = best.j ∧
    (extBack a b ahi bhi best fuel).i + (extBack a b ahi bhi best fuel).k ≤ ahi ∧
    (extBack a b ahi bhi best fuel).j + (extBack a b ahi bhi best fuel).k ≤ bhi := by
  intro fuel
  induction fuel with
  | zero =>
    intro best h1 h2
    exact ⟨rfl, rfl, h1, h2⟩
  | succ fuel ih =>
    intro best h1 h2
    rw [extBack]
    split
    · rename_i hcond
      have := ih ⟨best.i, best.j, best.k + 1⟩
        (by simp only; omega) (by simp only; omega)
      exact ⟨this.1, this.2.1, this.2.2.1, this.2.2.2⟩
    · exact ⟨rfl, rfl, h1, h2⟩

/-- The block returned by `find_longest_match` lies inside the requested
rectangle. -/
theorem flm_bounds (a b : Str) (alo ahi blo bhi : Nat)
    (h1 : alo ≤ ahi) (h2 : blo ≤ bhi) :
    alo ≤ (find_longest_match a b alo ahi blo bhi).i ∧
    (find_longest_match a b alo ahi blo bhi).i +
      (find_longest_match a b alo ahi blo bhi).k ≤ ahi ∧
    blo ≤ (find_longest_match a b alo ahi blo bhi).j ∧
    (find_longest_match a b alo ahi blo bhi).j +
      (find_longest_match a b alo ahi blo bhi).k ≤ bhi := by
  rw [find_longest_match]
  have hil := iloop_bounds a b alo ahi blo bhi (ahi - alo) alo [] ⟨alo, blo, 0⟩
    (Nat.le_refl _) (by omega) (fun t => Nat.zero_le _) (fun t => Nat.zero_le _)
    (Nat.le_refl _) (by simp only; omega) (Nat.le_refl _) (by simp only; omega)
  set B := iloop a b blo bhi (List.range' alo (ahi - alo)) [] ⟨alo, blo, 0⟩ with hB
  have hf := extFront_bounds a b alo blo B.i B hil.1 hil.2.2.1
  set F := extFront a b alo blo B B.i with hF
  have hb := extBack_bounds a b ahi bhi ahi F (by omega) (by omega)
  exact ⟨by omega, hb.1 ▸ hb.2.2.1, by omega, hb.2.1 ▸ hb.2.2.2⟩

/-- Queue-loop invariant: the collected blocks are pairwise separated,
nonempty, and in range. -/
theorem mbAux_inv (a b : Str) : ∀ (fuel : Nat) (q : List Rect) (acc : List Blk),
    (∀ r ∈ q, RectOK a b r) →
    q.Pairwise RSep →
    (∀ r ∈ q, ∀ m ∈ acc, Cross m r) →
    acc.Pairwise SepB →
    (∀ m ∈ acc, BlkOK a b m) →
    (mbAux a b fuel q acc).Pairwise SepB ∧
    (∀ m ∈ mbAux a b fuel q acc, BlkOK a b m) := by
  intro fuel
  induction fuel with
  | zero =>
    intro q acc _ _ _ h4 h5
    exact ⟨h4, h5⟩
  | succ fuel ih =>
    intro q acc hok hps hcr h4 h5
    cases q with
    | nil => exact ⟨h4, h5⟩
    | cons r q' =>
      rw [mbAux]
      dsimp only
      obtain ⟨hro1, hro2, hro3, hro4⟩ := hok r (List.mem_cons_self r q')
      obtain ⟨hm1, hm2, hm3, hm4⟩ := flm_bounds a b r.alo r.ahi r.blo r.bhi hro1 hro2
      obtain ⟨hhead, htail⟩ := List.pairwise_cons.mp hps
      by_cases hk : (find_longest_match a b r.alo r.ahi r.blo r.bhi).k = 0
      · rw [if_pos hk]
        exact ih q' acc (fun x hx => hok x (List.mem_cons_of_mem _ hx)) htail
          (fun x hx => hcr x (List.mem_cons_of_mem _ hx)) h4 h5
      · rw [if_neg hk]
        set M := find_longest_match a b r.alo r.ahi r.blo r.bhi with hM
        have hbm : BlkOK a b M := ⟨by omega, by omega, by omega⟩
        have hsep_m_acc : ∀ x ∈ acc, SepB M x := by
          intro x hx
          rcases hcr r (List.mem_cons_self r q') x hx with ⟨c1, c2⟩ | ⟨c1, c2⟩
          · exact Or.inr ⟨by omega, by omega⟩
          · exact Or.inl ⟨by omega, by omega⟩
        have hcross_m_q' : ∀ x ∈ q', Cross M x := by
          intro x hx
          rcases hhead x hx with ⟨c1, c2⟩ | ⟨c1, c2⟩
          · exact Or.inl ⟨by omega, by omega⟩
          · exact Or.inr ⟨by omega, by omega⟩
        have hr1ok : RectOK a b ⟨r.alo, M.i, r.blo, M.j⟩ :=
          ⟨by simp only; omega, by simp only; omega, by simp only; omega, by simp only; omega⟩
        have hr2ok : RectOK a b ⟨M.i + M.k, r.ahi, M.j + M.k, r.bhi⟩ :=
          ⟨by simp only; omega, by simp only; omega, by simp only; omega, by simp only; omega⟩
        have hcross_m_r1 : Cross M ⟨r.alo, M.i, r.blo, M.j⟩ :=
          Or.inr ⟨by simp only; omega, by simp only; omega⟩
        have hcross_m_r2 : Cross M ⟨M.i + M.k, r.ahi, M.j + M.k, r.bhi⟩ :=
          Or.inl ⟨by simp only; omega, by simp only; omega⟩
        have hcross_acc_r1 : ∀ x ∈ acc, Cross x ⟨r.alo, M.i, r.blo, M.j⟩ := by
          intro x hx
          rcases hcr r (List.mem_cons_self r q') x hx with ⟨c1, c2⟩ | ⟨c1, c2⟩
          · exact Or.inl ⟨by simp only; omega, by simp only; omega⟩
          · exact Or.inr ⟨by simp only; omega, by simp only; omega⟩
        have hcross_acc_r2 : ∀ x ∈ acc, Cross x ⟨M.i + M.k, r.ahi, M.j + M.k, r.bhi⟩ := by
          intro x hx
          rcases hcr r (List.mem_cons_self r q') x hx with ⟨c1, c2⟩ | ⟨c1, c2⟩
          · exact Or.inl ⟨by simp only; omega, by simp only; omega⟩
          · exact Or.inr ⟨by simp only; omega, by simp only; omega⟩
        have hrsep_r1_q' : ∀ x ∈ q', RSep ⟨r.alo, M.i, r.blo, M.j⟩ x := by
          intro x hx
          rcases hhead x hx with ⟨c1, c2⟩ | ⟨c1, c2⟩
          · exact Or.inl ⟨by simp only; omega, by simp only; omega⟩
          · exact Or.inr ⟨by simp only; omega, by simp only; omega⟩
        have hrsep_r2_q' : ∀ x ∈ q', RSep ⟨M.i + M.k, r.ahi, M.j + M.k, r.bhi⟩ x := by
          intro x hx
          rcases hhead x hx with ⟨c1, c2⟩ | ⟨c1, c2⟩
          · exact Or.inl ⟨by simp only; omega, by simp only; omega⟩
          · exact Or.inr ⟨by simp only; omega, by simp only; omega⟩
        have hrsep_r2_r1 : RSep ⟨M.i + M.k, r.ahi, M.j + M.k, r.bhi⟩ ⟨r.alo, M.i, r.blo, M.j⟩ :=
          Or.inr ⟨by simp only; omega, by simp only; omega⟩
        have hconsA : acc.Pairwise SepB → (M :: acc).Pairwise SepB :=
          fun h => List.pairwise_cons.mpr ⟨hsep_m_acc, h⟩
        have hbmAll : ∀ x ∈ M :: acc, BlkOK a b x := by
          intro x hx
          rcases List.mem_cons.mp hx with h | h
          · rw [h]; exact hbm
          · exact h5 x h
        by_cases hc1 : r.alo < M.i ∧ r.blo < M.j
        · rw [if_pos hc1]
          by_cases hc2 : M.i + M.k < r.ahi ∧ M.j + M.k < r.bhi
          · rw [if_pos hc2]
            refine ih _ _ ?_ ?_ ?_ (hconsA h4) hbmAll
            · intro x hx
              rcases List.mem_cons.mp hx with h | h
              · rw [h]; exact hr2ok
              · rcases List.mem_cons.mp h with h' | h'
                · rw [h']; exact hr1ok
                · exact hok x (List.mem_cons_of_mem _ h')
            · refine List.pairwise_cons.mpr ⟨?_, List.pairwise_cons.mpr ⟨hrsep_r1_q', htail⟩⟩
              intro x hx
              rcases List.mem_cons.mp hx with h | h
              · rw [h]; exact hrsep_r2_r1
              · exact hrsep_r2_q' x h
            · intro x hx y hy
              rcases List.mem_cons.mp hy with h | h
              · rw [h]
                rcases List.mem_cons.mp hx with h' | h'
                · rw [h']; exact hcross_m_r2
                · rcases List.mem_cons.mp h' with h'' | h''
                  · rw [h'']; exact hcross_m_r1
                  · exact hcross_m_q' x h''
              · rcases List.mem_cons.mp hx with h' | h'
                · rw [h']; exact hcross_acc_r2 y h
                · rcases List.mem_cons.mp h' with h'' | h''
                  · rw [h'']; exact hcross_acc_r1 y h
                  · exact hcr x (List.mem_cons_of_mem _ h'') y h
          · rw [if_neg hc2]
            refine ih _ _ ?_ (List.pairwise_cons.mpr ⟨hrsep_r1_q', htail⟩) ?_ (hconsA h4) hbmAll
            · intro x hx
              rcases List.mem_cons.mp hx with h | h
              · rw [h]; exact hr1ok
              · exact hok x (List.mem_cons_of_mem _ h)
            · intro x hx y hy
              rcases List.mem_cons.mp hy with h | h
              · rw [h]
                rcases List.mem_cons.mp hx with h' | h'
                · rw [h']; exact hcross_m_r1
                · exact hcross_m_q' x h'
              · rcases List.mem_cons.mp hx with h' | h'
                · rw [h']; exact hcross_acc_r1 y h
                · exact hcr x (List.mem_cons_of_mem _ h') y h
        · rw [if_neg hc1]
          by_cases hc2 : M.i + M.k < r.ahi ∧ M.j + M.k < r.bhi
          · rw [if_pos hc2]
            refine ih _ _ ?_ (List.pairwise_cons.mpr ⟨hrsep_r2_q', htail⟩) ?_ (hconsA h4) hbmAll
            · intro x hx
              rcases List.mem_cons.mp hx with h | h
              · rw [h]; exact hr2ok
              · exact hok x (List.mem_cons_of_mem _ h)
            · intro x hx y hy
              rcases List.mem_cons.mp hy with h | h
              · rw [h]
                rcases List.mem_cons.mp hx with h' | h'
                · rw [h']; exact hcross_m_r2
                · exact hcross_m_q' x h'
              · rcases List.mem_cons.mp hx with h' | h'
                · rw [h']; exact hcross_acc_r2 y h
                · exact hcr x (List.mem_cons_of_mem _ h') y h
          · rw [if_neg hc2]
            refine ih _ _ (fun x hx => hok x (List.mem_cons_of_mem _ hx)) htail ?_
              (hconsA h4) hbmAll
            intro x hx y hy
            rcases List.mem_cons.mp hy with h | h
            · rw [h]
              exact hcross_m_q' x hx
            · exact hcr x (List.mem_cons_of_mem _ hx) y h

/-- After sorting, pairwise-separated nonempty blocks are in strictly
increasing position on both sides. -/
theorem sorted_before (L : List Blk)
    (hsep : L.Pairwise SepB) (hok : ∀ m ∈ L, 1 ≤ m.k) :
    (L.insertionSort blkLe).Pairwise Before := by
  have hperm : List.Perm (L.insertionSort blkLe) L := List.perm_insertionSort blkLe L
  have hsymm : Symmetric SepB := fun x y h => Or.symm h
  have hsep' : (L.insertionSort blkLe).Pairwise SepB :=
    (hperm.pairwise_iff (fun hpq => Or.symm hpq)).mpr hsep
  have hsort : (L.insertionSort blkLe).Pairwise blkLe := List.sorted_insertionSort blkLe L
  have hand := hsep'.and hsort
  refine hand.imp_of_mem ?_
  intro x y hx hy hxy
  rcases hxy.1 with hbef | hbef
  · exact hbef
  · have hky : 1 ≤ y.k := hok y (hperm.subset hy)
    obtain ⟨hb1, hb2⟩ := hbef
    rcases hxy.2 with hlt | ⟨heq, _⟩
    · exact absurd hlt (by omega)
    · exact absurd heq (by omega)

theorem Tiles_weaken {a b : Str} {i' j' : Nat} {x : Blk} {L : List Blk}
    (ht : Tiles a b i' j' (x :: L)) {i j : Nat} (hi : i ≤ i') (hj : j ≤ j') :
    Tiles a b i j (x :: L) := by
  cases ht with
  | cons h1 h2 h3 => exact Tiles.cons (le_trans hi h1) (le_trans hj h2) h3

/-- The coalescing loop emits a tiling ending at the sentinel. -/
theorem mergeAdj_tiles (a b : Str) : ∀ (blocks : List Blk) (i1 j1 k1 : Nat),
    blocks.Pairwise Before →
    (∀ m ∈ blocks, i1 + k1 ≤ m.i ∧ j1 + k1 ≤ m.j) →
    (∀ m ∈ blocks, m.i + m.k ≤ a.length ∧ m.j + m.k ≤ b.length) →
    i1 + k1 ≤ a.length → j1 + k1 ≤ b.length →
    Tiles a b i1 j1 (mergeAdj i1 j1 k1 blocks ++ [⟨a.length, b.length, 0⟩]) := by
  intro blocks
  induction blocks with
  | nil =>
    intro i1 j1 k1 _ _ _ hla hlb
    rw [mergeAdj]
    by_cases hk : k1 ≠ 0
    · rw [if_pos hk]
      exact Tiles.cons (Nat.le_refl _) (Nat.le_refl _)
        (Tiles.cons hla hlb Tiles.nil)
    · rw [if_neg hk]
      have hk0 : k1 = 0 := by omega
      exact Tiles.cons (show i1 ≤ a.length by omega) (show j1 ≤ b.length by omega) Tiles.nil
  | cons m rest ih =>
    intro i1 j1 k1 hpw hge hok hla hlb
    obtain ⟨hhead, htail⟩ := List.pairwise_cons.mp hpw
    obtain ⟨hgm1, hgm2⟩ := hge m (List.mem_cons_self m rest)
    obtain ⟨hom1, hom2⟩ := hok m (List.mem_cons_self m rest)
    rw [mergeAdj]
    by_cases hc : i1 + k1 = m.i ∧ j1 + k1 = m.j
    · rw [if_pos hc]
      refine ih i1 j1 (k1 + m.k) htail ?_
        (fun x hx => hok x (List.mem_cons_of_mem _ hx)) (by omega) (by omega)
      intro x hx
      have hb := hhead x hx
      exact ⟨by have := hb.1; omega, by have := hb.2; omega⟩
    · rw [if_neg hc]
      have hmain : Tiles a b m.i m.j
          (mergeAdj m.i m.j m.k rest ++ [⟨a.length, b.length, 0⟩]) :=
        ih m.i m.j m.k htail (fun x hx => hhead x hx)
          (fun x hx => hok x (List.mem_cons_of_mem _ hx)) hom1 hom2
      have hne : ∃ x L, mergeAdj m.i m.j m.k rest ++ [(⟨a.length, b.length, 0⟩ : Blk)] =
          x :: L := by
        cases mergeAdj m.i m.j m.k rest with
        | nil => exact ⟨(⟨a.length, b.length, 0⟩ : Blk), [], rfl⟩
        | cons x xs => exact ⟨x, xs ++ [(⟨a.length, b.length, 0⟩ : Blk)], rfl⟩
      obtain ⟨x, L, hxl⟩ := hne
      rw [hxl] at hmain
      by_cases hk : k1 ≠ 0
      · rw [if_pos hk]
        rw [List.cons_append, List.nil_append, List.cons_append]
        rw [hxl]
        exact Tiles.cons (Nat.le_refl _) (Nat.le_refl _)
          (Tiles_weaken hmain (show i1 + k1 ≤ m.i from hgm1) (show j1 + k1 ≤ m.j from hgm2))
      · rw [if_neg hk]
        rw [List.nil_append, hxl]
        exact Tiles_weaken hmain (show i1 ≤ m.i by omega) (show j1 ≤ m.j by omega)

/-- The matching blocks of any pair tile the two ranges. -/
theorem gmb_tiles (a b : Str) : Tiles a b 0 0 (get_matching_blocks a b) := by
  rw [get_matching_blocks]
  have hinv := mbAux_inv a b (2 * a.length + 1) [⟨0, a.length, 0, b.length⟩] []
    (by
      intro r hr
      rcases List.mem_singleton.mp hr with rfl
      exact ⟨Nat.zero_le _, Nat.zero_le _, Nat.le_refl _, Nat.le_refl _⟩)
    (List.pairwise_singleton _ _)
    (by intro r _ m hm; simp at hm)
    List.Pairwise.nil
    (by intro m hm; simp at hm)
  set blocks := mbAux a b (2 * a.length + 1) [⟨0, a.length, 0, b.length⟩] [] with hbl
  refine mergeAdj_tiles a b (blocks.insertionSort blkLe) 0 0 0
    (sorted_before blocks hinv.1 (fun m hm => (hinv.2 m hm).1)) ?_ ?_ (by omega) (by omega)
  · intro m _
    exact ⟨Nat.zero_le _, Nat.zero_le _⟩
  · intro m hm
    have hmem : m ∈ blocks := (List.perm_insertionSort blkLe blocks).subset hm
    exact ⟨(hinv.2 m hmem).2.1, (hinv.2 m hmem).2.2⟩

/-- C1: within the truncation cap, concatenating the diff segments in
opcode order reconstructs text1 on side 1 and text2 on side 2 — the
segments are exactly the opcode-delimited slices, the matching blocks
tile both index ranges, and each tile contributes its slice once. -/
theorem generate_text_diff_roundtrip (a b : Str)
    (_ha : a.length ≤ 5000) (_hb : b.length ≤ 5000) :
    ((generate_text_diff_segments a b).map (fun s => s.2.1)).flatten = a ∧
    ((generate_text_diff_segments a b).map (fun s => s.2.2)).flatten = b := by
  have ht := gmb_tiles a b
  constructor
  · have h := opcodes_concat1 a b (get_matching_blocks a b) 0 0 ht
    rw [generate_text_diff_segments, List.map_map, get_opcodes]
    exact h
  · have h := opcodes_concat2 a b (get_matching_blocks a b) 0 0 ht
    rw [generate_text_diff_segments, List.map_map, get_opcodes]
    exact h

/-- Witness for C1 at the pair ("ab", "b"). -/
theorem generate_text_diff_roundtrip_witness :
    ((generate_text_diff_segments (strOf "ab") (strOf "b")).map (fun s => s.2.1)).flatten
      = strOf "ab" ∧
    ((generate_text_diff_segments (strOf "ab") (strOf "b")).map (fun s => s.2.2)).flatten
      = strOf "b" :=
  generate_text_diff_roundtrip (strOf "ab") (strOf "b") (by decide) (by decide)
